import Mathlib

set_option maxHeartbeats 1000000
set_option maxRecDepth 4000

/-!
Shallow embedding of the model cache of `ldm/invoke/model_cache.py`
(class `ModelCache`) and theorems about the cache invariants claimed by
the specification.

Modelling conventions:
* The registry (`self.config`, an OmegaConf mapping loaded from
  models.yaml) is an association list from model names to attribute
  lists.  Attribute values are strings, numbers or booleans.
* The loaded-model pool (`self.models`, a Python dict) is an association
  list from model names to `ModelRecord`s (the dict
  `\x7bmodel, width, height, hash\x7d` built in `get_model`).
* The opaque torch model object is represented by `ModelObj`: an identity
  plus the device location its submodules currently live on; the
  `_model_to_cpu` / `_model_from_cpu` transfers become updates of `loc`.
* `torch.device(device_type)` is represented by the device type string
  itself; the comparisons with the string literal `cpu` in
  `_model_to_cpu` / `_model_from_cpu` become string equality.
* The expensive fallible `_load_model` is an oracle
  `Name → Option ModelRecord`; `Option.none` models the loader raising
  (the `except Exception` arm of `get_model`).  An instrumentation
  counter `loader_calls` counts loader invocations.
* A Python call either returns a value (`OpOut.ok`), or raises an
  exception that the cache does not catch (`OpOut.exn`, carrying the
  state at the moment of the raise), or never returns.  `get_model` is
  recursive (its error recovery calls `get_model` again), so it is
  embedded with explicit fuel; exhausted fuel (`Option.none`) models
  divergence.
-/

namespace InvokeCache

abbrev Name := String

/-- An attribute value of a models.yaml registry entry. -/
inductive AttrVal
  | str (s : String)
  | num (n : Nat)
  | bool (b : Bool)
deriving DecidableEq

abbrev Attrs := List (String × AttrVal)

/-- The keys of an association list. -/
def keys {α : Type} (l : List (String × α)) : List String := l.map Prod.fst

/-- Python `k in d` for a dict represented as an association list. -/
def containsKey {α : Type} (l : List (String × α)) (k : String) : Bool :=
  decide (k ∈ keys l)

/-- Python `d[k]` lookup (as an `Option`). -/
def lookupKey {α : Type} : List (String × α) → String → Option α
  | [], _ => Option.none
  | p :: rest, k => if p.1 = k then some p.2 else lookupKey rest k

/-- Python `d[k] = v`: replace the binding if the key is present,
otherwise append a new binding. -/
def setKey {α : Type} (l : List (String × α)) (k : String) (v : α) : List (String × α) :=
  if containsKey l k then l.map (fun p => if p.1 = k then (k, v) else p)
  else l ++ [(k, v)]

/-- Python `del d[k]` / `d.pop(k, None)`: drop the binding for `k`. -/
def delKey {α : Type} (l : List (String × α)) (k : String) : List (String × α) :=
  l.filter (fun p => decide (p.1 ≠ k))

/-- The opaque instantiated model object: an identity and the device its
submodules currently live on. -/
structure ModelObj where
  oid : Nat
  loc : String
deriving DecidableEq

/-- One entry of `self.models`: the dict
`\x7b'model': m, 'width': w, 'height': h, 'hash': s\x7d`. -/
structure ModelRecord where
  model : ModelObj
  width : Nat
  height : Nat
  hash : String
deriving DecidableEq

/-- The mutable state of a `ModelCache` object. -/
structure MCState where
  config : List (Name × Attrs)
  device : String
  precision : String
  max_loaded_models : Nat
  models : List (Name × ModelRecord)
  stack : List Name
  current_model : Option Name
  loader_calls : Nat
deriving DecidableEq

/-- Outcome of one Python method call: a returned value together with the
post-state, or an uncaught exception together with the state at the
moment of the raise. -/
inductive OpOut (α : Type)
  | ok (v : α) (s : MCState)
  | exn (s : MCState)
deriving DecidableEq

/-- The state after the call, whether it returned or raised. -/
def OpOut.state {α : Type} : OpOut α → MCState
  | .ok _ s => s
  | .exn s => s

/-- Did the call return normally? -/
def OpOut.isOk {α : Type} : OpOut α → Bool
  | .ok _ _ => true
  | .exn _ => false

/-- A Python value returned by `get_model`: `None`, a plain string
(`return self.current_model` on an unknown name), or the result dict. -/
inductive PyValue
  | pynone
  | pystr (s : String)
  | pydict (model : ModelObj) (width : Nat) (height : Nat) (hash : String)
deriving DecidableEq

/-- Is the returned value the result dict? -/
def PyValue.is_dict : PyValue → Bool
  | .pydict _ _ _ _ => true
  | _ => false

/-- The value of the expression `self.current_model` as a Python value. -/
def pyOfCurrent : Option Name → PyValue
  | Option.none => .pynone
  | some n => .pystr n

/-- `ModelCache.__init__`: empty pool, empty residency stack, no current
model. -/
def init_state (config : List (Name × Attrs)) (device precision : String)
    (max_loaded : Nat) : MCState :=
  { config := config, device := device, precision := precision,
    max_loaded_models := max_loaded, models := [], stack := [],
    current_model := Option.none, loader_calls := 0 }

/-- `ModelCache.valid_model`: `model_name in self.config`. -/
def valid_model (s : MCState) (n : Name) : Bool := containsKey s.config n

/-- `ModelCache._model_to_cpu`: move the submodules to the CPU unless the
configured device already is the CPU. -/
def model_to_cpu (device : String) (m : ModelObj) : ModelObj :=
  if device = "cpu" then m else { m with loc := "cpu" }

/-- `ModelCache._model_from_cpu`: move the submodules back to the
configured device unless it is the CPU. -/
def model_from_cpu (device : String) (m : ModelObj) : ModelObj :=
  if device = "cpu" then m else { m with loc := device }

/-- `ModelCache.offload_model`: a no-op if the name is not a pool key
(`self.current_model` may also be `None`), otherwise move the pool
entry's model object to the CPU. -/
def offload_model (s : MCState) (nameOpt : Option Name) : MCState :=
  match nameOpt with
  | Option.none => s
  | some n =>
    match lookupKey s.models n with
    | Option.none => s
    | some r =>
      { s with models := setKey s.models n { r with model := model_to_cpu s.device r.model } }

/-- `ModelCache._make_cache_room` (with `_pop_oldest_model` inlined:
that method is exactly `self.stack.pop(0)`).  If the pool is at or over
capacity, pop the head of the residency stack and delete its pool entry.
`self.stack.pop(0)` raises `IndexError` on an empty stack, and
`del self.models[least_recent]` raises `KeyError` if the popped name is
not a pool key; the `least_recent is not None` guard in the source is
vacuous because the stack only ever holds model names. -/
def make_cache_room (s : MCState) : OpOut Unit :=
  if s.max_loaded_models ≤ s.models.length then
    match s.stack with
    | [] => .exn s
    | least :: rest =>
      if containsKey s.models least then
        .ok () { s with stack := rest, models := delKey s.models least }
      else .exn { s with stack := rest }
  else .ok () s

/-- `ModelCache._push_newest_model`: remove the name from the stack if
present (`try: remove / except ValueError: pass`) and append it at the
tail. -/
def push_newest_model (stack : List Name) (n : Name) : List Name :=
  stack.erase n ++ [n]

/-- Lines 61-64 of `get_model`: if the requested name is not the current
model, make room when the name is not resident, then offload the current
model to the CPU. -/
def after_step1 (s : MCState) (name : Name) : OpOut Unit :=
  if s.current_model = some name then .ok () s
  else
    match (if containsKey s.models name then OpOut.ok () s else make_cache_room s) with
    | .ok _ s1 => .ok () (offload_model s1 s1.current_model)
    | .exn s1 => .exn s1

/-- Lines 66-72 of `get_model`: the requested model is resident, so move
it from the CPU back to the device, store the moved object in the pool
entry, and return the result dict. -/
def retrieve_resident (s2 : MCState) (name : Name) (entry : ModelRecord) : OpOut PyValue :=
  let m2 := model_from_cpu s2.device entry.model
  let s3 := { s2 with models := setKey s2.models name { entry with model := m2 } }
  .ok (.pydict m2 entry.width entry.height entry.hash)
    { s3 with current_model := some name, stack := push_newest_model s3.stack name }

/-- Lines 75-81 and 89-96 of `get_model`: the loader succeeded, so insert
the fresh record into the pool and return the result dict. -/
def install_loaded (s2 : MCState) (name : Name) (loaded : ModelRecord) : OpOut PyValue :=
  let s3 := { s2 with models := setKey s2.models name loaded,
                      loader_calls := s2.loader_calls + 1 }
  .ok (.pydict loaded.model loaded.width loaded.height loaded.hash)
    { s3 with current_model := some name, stack := push_newest_model s3.stack name }

/-- The body of `ModelCache.get_model`, parameterised over the recursive
call used by the error-recovery arm (`self.get_model(self.current_model)`
inside `except`).  `nameOpt` is an `Option` because that recovery call
passes `self.current_model`, which may be `None`; `None` never equals a
registry key, so it takes the invalid-name early return. -/
def get_model_step (ld : Name → Option ModelRecord)
    (recur : MCState → Option Name → Option (OpOut PyValue))
    (s : MCState) (nameOpt : Option Name) : Option (OpOut PyValue) :=
  match nameOpt with
  | Option.none => some (.ok (pyOfCurrent s.current_model) s)
  | some name =>
    if valid_model s name then
      match after_step1 s name with
      | .exn s1 => some (.exn s1)
      | .ok _ s2 =>
        match lookupKey s2.models name with
        | some entry => some (retrieve_resident s2 name entry)
        | Option.none =>
          match ld name with
          | some loaded => some (install_loaded s2 name loaded)
          | Option.none =>
            let s3 := { s2 with loader_calls := s2.loader_calls + 1 }
            match recur s3 s3.current_model with
            | some (.ok _ s4) => some (.ok PyValue.pynone s4)
            | some (.exn s4) => some (.exn s4)
            | Option.none => Option.none
    else some (.ok (pyOfCurrent s.current_model) s)

/-- `ModelCache.get_model`, with fuel bounding the recursion depth of the
error-recovery arm.  `Option.none` means the fuel ran out, i.e. the call
never returns. -/
def get_model (ld : Name → Option ModelRecord) :
    Nat → MCState → Option Name → Option (OpOut PyValue)
  | 0, _, _ => Option.none
  | fuel+1, s, nameOpt => get_model_step ld (get_model ld fuel) s nameOpt

theorem get_model_zero (ld : Name → Option ModelRecord) (s : MCState) (n : Option Name) :
    get_model ld 0 s n = Option.none := rfl

theorem get_model_succ (ld : Name → Option ModelRecord) (fuel : Nat) (s : MCState)
    (n : Option Name) :
    get_model ld (fuel+1) s n = get_model_step ld (get_model ld fuel) s n := rfl

/-- `ModelCache.del_model`: `del omega[model_name]` raises for a name
absent from the registry (before any mutation); otherwise remove the
registry entry, remove the name from the residency stack if present, and
return `True`.  The pool is not touched. -/
def del_model (s : MCState) (name : Name) : OpOut Bool :=
  if containsKey s.config name then
    let s1 := { s with config := delKey s.config name }
    .ok true (if name ∈ s1.stack then { s1 with stack := s1.stack.erase name } else s1)
  else .exn s

/-- `ModelCache._invalidate_cached_model`: offload, drop from the stack
if present, and `self.models.pop(model_name, None)`. -/
def invalidate_cached_model (s : MCState) (name : Name) : MCState :=
  let s1 := offload_model s (some name)
  let s2 := if name ∈ s1.stack then { s1 with stack := s1.stack.erase name } else s1
  { s2 with models := delKey s2.models name }

/-- The required attribute fields checked by `add_model`. -/
def required_fields : List String := ["description", "weights", "height", "width", "config"]

/-- `ModelCache.add_model`: assert the required fields, assert
`clobber or model_name not in omega`, merge the attributes into the
(possibly pre-existing) entry, store it, and invalidate any cached pool
entry when clobbering.  A failed assertion raises before any mutation. -/
def add_model (s : MCState) (name : Name) (attrs : Attrs) (clobber : Bool) : OpOut Bool :=
  if required_fields.all (fun f => containsKey attrs f) then
    if clobber || !(containsKey s.config name) then
      let base := (lookupKey s.config name).getD []
      let entry := attrs.foldl (fun c p => setKey c p.1 p.2) base
      let s1 := { s with config := setKey s.config name entry }
      .ok true (if clobber then invalidate_cached_model s1 name else s1)
    else .exn s
  else .exn s

/-- The loop `for model in config: config[model].pop('default', None)` of
`set_default_model`. -/
def clear_defaults (config : List (Name × Attrs)) : List (Name × Attrs) :=
  config.map (fun p => (p.1, delKey p.2 "default"))

/-- `ModelCache.set_default_model`: assert that the name is a *pool* key
(not a registry key!), clear the default flag from every registry entry,
then set it on the target.  `config[model_name]` raises if the name is a
pool key but not a registry key, and by then the defaults have already
been cleared. -/
def set_default_model (s : MCState) (name : Name) : OpOut Unit :=
  if containsKey s.models name then
    let cfg1 := clear_defaults s.config
    if containsKey cfg1 name then
      let cfg2 := cfg1.map
        (fun p => if p.1 = name then (p.1, setKey p.2 "default" (.bool true)) else p)
      .ok () { s with config := cfg2 }
    else .exn { s with config := cfg1 }
  else .exn s

/-- The filesystem state relevant to `_cached_sha256` for one weights
file: its modification time, and the sidecar `.sha256` file (existence,
content, modification time). -/
structure HashFS where
  sidecar_exists : Bool
  sidecar_content : String
  sidecar_mtime : Nat
  weights_mtime : Nat
deriving DecidableEq

/-- `ModelCache._cached_sha256`: trust the sidecar only if it exists and
the weights file is not newer than it; otherwise hash the weights bytes
(`hashlib.sha256`, abstracted as `sha256hex`), rewrite the sidecar (its
modification time becomes the current time `now`), and return the fresh
digest. -/
def cached_sha256 (sha256hex : List Nat → String) (now : Nat) (fs : HashFS)
    (data : List Nat) : String × HashFS :=
  if fs.sidecar_exists = true ∧ fs.weights_mtime ≤ fs.sidecar_mtime then
    (fs.sidecar_content, fs)
  else
    (sha256hex data,
      { fs with sidecar_exists := true, sidecar_content := sha256hex data,
                sidecar_mtime := now })

/-! ### Association-list lemmas -/

theorem containsKey_iff {α : Type} (l : List (String × α)) (k : String) :
    containsKey l k = true ↔ k ∈ keys l := by
  simp [containsKey]

theorem containsKey_eq_false_iff {α : Type} (l : List (String × α)) (k : String) :
    containsKey l k = false ↔ k ∉ keys l := by
  simp [containsKey]

theorem keys_cons {α : Type} (p : String × α) (l : List (String × α)) :
    keys (p :: l) = p.1 :: keys l := rfl

theorem keys_length {α : Type} (l : List (String × α)) : (keys l).length = l.length := by
  simp [keys]

theorem lookupKey_eq_none_iff {α : Type} (l : List (String × α)) (k : String) :
    lookupKey l k = Option.none ↔ k ∉ keys l := by
  induction l with
  | nil => simp [lookupKey, keys]
  | cons p rest ih =>
    by_cases h : p.1 = k
    · simp [lookupKey, h, keys]
    · rw [keys_cons, List.mem_cons]
      simp only [lookupKey, if_neg h, ih]
      constructor
      · rintro hk (h1 | h2)
        · exact h h1.symm
        · exact hk h2
      · intro hk hm; exact hk (Or.inr hm)

theorem mem_keys_of_lookupKey {α : Type} {l : List (String × α)} {k : String} {v : α}
    (h : lookupKey l k = some v) : k ∈ keys l := by
  by_contra hc
  rw [(lookupKey_eq_none_iff l k).mpr hc] at h
  exact Option.noConfusion h

theorem lookupKey_exists_of_mem {α : Type} {l : List (String × α)} {k : String}
    (h : k ∈ keys l) : ∃ v, lookupKey l k = some v := by
  cases hl : lookupKey l k with
  | none => exact absurd ((lookupKey_eq_none_iff l k).mp hl) (not_not_intro h)
  | some v => exact ⟨v, rfl⟩

theorem keys_map_update {α : Type} (l : List (String × α)) (k : String) (v : α) :
    keys (l.map (fun p => if p.1 = k then (k, v) else p)) = keys l := by
  induction l with
  | nil => rfl
  | cons p rest ih =>
    by_cases h : p.1 = k
    · simp [keys_cons, h, ih]
    · simp [keys_cons, h, ih]

theorem keys_setKey_of_mem {α : Type} (l : List (String × α)) (k : String) (v : α)
    (h : k ∈ keys l) : keys (setKey l k v) = keys l := by
  rw [setKey, if_pos ((containsKey_iff l k).mpr h)]
  exact keys_map_update l k v

theorem keys_setKey_of_not_mem {α : Type} (l : List (String × α)) (k : String) (v : α)
    (h : k ∉ keys l) : keys (setKey l k v) = keys l ++ [k] := by
  rw [setKey, if_neg]
  · simp [keys]
  · rw [containsKey_iff]; exact h

theorem mem_keys_setKey_of_mem {α : Type} (l : List (String × α)) (k k' : String) (v : α)
    (h : k' ∈ keys l) : k' ∈ keys (setKey l k v) := by
  by_cases hm : k ∈ keys l
  · rw [keys_setKey_of_mem l k v hm]; exact h
  · rw [keys_setKey_of_not_mem l k v hm]; exact List.mem_append_left _ h

theorem length_setKey_of_mem {α : Type} (l : List (String × α)) (k : String) (v : α)
    (h : k ∈ keys l) : (setKey l k v).length = l.length := by
  rw [setKey, if_pos ((containsKey_iff l k).mpr h), List.length_map]

theorem lookupKey_map_update_self {α : Type} (l : List (String × α)) (k : String) (v : α)
    (h : k ∈ keys l) :
    lookupKey (l.map (fun p => if p.1 = k then (k, v) else p)) k = some v := by
  induction l with
  | nil => exact absurd h (List.not_mem_nil k)
  | cons p rest ih =>
    by_cases hp : p.1 = k
    · simp [lookupKey, hp]
    · rw [keys_cons, List.mem_cons] at h
      have hk : k ∈ keys rest := h.resolve_left (fun he => hp he.symm)
      simp [lookupKey, hp, ih hk]

theorem lookupKey_append {α : Type} (l1 l2 : List (String × α)) (k : String) :
    lookupKey (l1 ++ l2) k =
      (match lookupKey l1 k with
       | some v => some v
       | Option.none => lookupKey l2 k) := by
  induction l1 with
  | nil => rfl
  | cons p rest ih =>
    by_cases h : p.1 = k <;> simp [lookupKey, h, ih]

theorem lookupKey_setKey_self {α : Type} (l : List (String × α)) (k : String) (v : α) :
    lookupKey (setKey l k v) k = some v := by
  rw [setKey]
  by_cases h : containsKey l k = true
  · rw [if_pos h]; exact lookupKey_map_update_self l k v ((containsKey_iff l k).mp h)
  · rw [if_neg h, lookupKey_append]
    have hn : k ∉ keys l := (containsKey_eq_false_iff l k).mp (by simpa using h)
    rw [(lookupKey_eq_none_iff l k).mpr hn]
    simp [lookupKey]

theorem lookupKey_map_update_ne {α : Type} (l : List (String × α)) (k k' : String) (v : α)
    (h : k' ≠ k) :
    lookupKey (l.map (fun p => if p.1 = k then (k, v) else p)) k' = lookupKey l k' := by
  induction l with
  | nil => rfl
  | cons p rest ih =>
    by_cases hp : p.1 = k
    · have hk : ¬ (k = k') := fun he => h he.symm
      have hp' : ¬ (p.1 = k') := fun he => h (hp ▸ he).symm
      simp [lookupKey, hp, hk, hp', ih]
    · by_cases hp' : p.1 = k' <;> simp [lookupKey, hp, hp', ih, h]

theorem lookupKey_setKey_ne {α : Type} (l : List (String × α)) (k k' : String) (v : α)
    (h : k' ≠ k) : lookupKey (setKey l k v) k' = lookupKey l k' := by
  rw [setKey]
  by_cases hc : containsKey l k = true
  · rw [if_pos hc]; exact lookupKey_map_update_ne l k k' v h
  · rw [if_neg hc, lookupKey_append]
    cases hl : lookupKey l k' with
    | some v' => rfl
    | none =>
      have hk : ¬ (k = k') := fun he => h he.symm
      simp [lookupKey, hk]

theorem mem_keys_delKey {α : Type} (l : List (String × α)) (k k' : String) :
    k' ∈ keys (delKey l k) ↔ k' ∈ keys l ∧ k' ≠ k := by
  induction l with
  | nil => simp [delKey, keys]
  | cons p rest ih =>
    by_cases hp : p.1 = k
    · simp only [delKey, List.filter_cons] at *
      rw [if_neg (by simp [hp])] at *
      rw [ih, keys_cons, List.mem_cons]
      constructor
      · rintro ⟨h1, h2⟩; exact ⟨Or.inr h1, h2⟩
      · rintro ⟨h1 | h1, h2⟩
        · exact absurd (hp ▸ h1) h2
        · exact ⟨h1, h2⟩
    · simp only [delKey, List.filter_cons] at *
      rw [if_pos (by simp [hp])] at *
      rw [keys_cons, keys_cons, List.mem_cons, List.mem_cons, ih]
      constructor
      · rintro (h1 | ⟨h1, h2⟩)
        · exact ⟨Or.inl h1, fun he => hp (he ▸ h1).symm⟩
        · exact ⟨Or.inr h1, h2⟩
      · rintro ⟨h1 | h1, h2⟩
        · exact Or.inl h1
        · exact Or.inr ⟨h1, h2⟩

theorem delKey_of_not_mem {α : Type} {l : List (String × α)} {k : String}
    (h : k ∉ keys l) : delKey l k = l := by
  induction l with
  | nil => rfl
  | cons p rest ih =>
    rw [keys_cons, List.mem_cons] at h
    push_neg at h
    have hp : p.1 ≠ k := fun he => h.1 he.symm
    show List.filter _ (p :: rest) = p :: rest
    rw [List.filter_cons_of_pos (by simpa using hp)]
    exact congrArg (p :: ·) (ih h.2)

theorem delKey_sublist {α : Type} (l : List (String × α)) (k : String) :
    (delKey l k).Sublist l := List.filter_sublist l

theorem nodup_keys_delKey {α : Type} {l : List (String × α)} (h : (keys l).Nodup)
    (k : String) : (keys (delKey l k)).Nodup :=
  List.Nodup.sublist (List.Sublist.map Prod.fst (delKey_sublist l k)) h

theorem length_delKey_add_one {α : Type} {l : List (String × α)} {k : String}
    (hn : (keys l).Nodup) (h : k ∈ keys l) : (delKey l k).length + 1 = l.length := by
  induction l with
  | nil => exact absurd h (List.not_mem_nil k)
  | cons p rest ih =>
    rw [keys_cons] at hn h
    have hn' := List.nodup_cons.mp hn
    rcases List.mem_cons.mp h with h1 | h1
    · have hp : ¬ (p.1 ≠ k) := fun hne => hne h1.symm
      show (List.filter _ (p :: rest)).length + 1 = (p :: rest).length
      rw [List.filter_cons_of_neg (by simpa using hp)]
      have hnm : k ∉ keys rest := h1 ▸ hn'.1
      rw [show List.filter (fun q => decide (q.1 ≠ k)) rest = delKey rest k from rfl,
        delKey_of_not_mem hnm, List.length_cons]
    · have hp : p.1 ≠ k := fun he => hn'.1 (he ▸ h1)
      show (List.filter _ (p :: rest)).length + 1 = (p :: rest).length
      rw [List.filter_cons_of_pos (by simpa using hp), List.length_cons, List.length_cons]
      rw [show List.filter (fun q => decide (q.1 ≠ k)) rest = delKey rest k from rfl]
      rw [ih hn'.2 h1]

theorem length_delKey_le {α : Type} (l : List (String × α)) (k : String) :
    (delKey l k).length ≤ l.length :=
  List.Sublist.length_le (delKey_sublist l k)

/-! ### Residency-stack lemmas -/

theorem mem_of_getLast?_eq {α : Type} : ∀ {l : List α} {a : α}, l.getLast? = some a → a ∈ l := by
  intro l
  induction l with
  | nil => intro a h; exact Option.noConfusion h
  | cons x rest ih =>
    intro a h
    cases rest with
    | nil =>
      simp [List.getLast?] at h
      exact h ▸ List.mem_singleton_self x
    | cons y t =>
      rw [List.getLast?_cons_cons] at h
      exact List.mem_cons_of_mem x (ih h)

theorem push_newest_nodup {stack : List Name} (h : stack.Nodup) (n : Name) :
    (push_newest_model stack n).Nodup := by
  rw [push_newest_model]
  apply List.Nodup.append (h.erase n) (List.nodup_singleton n)
  intro a ha hb
  rw [List.mem_singleton] at hb
  subst hb
  exact (h.mem_erase_iff.mp ha).1 rfl

theorem mem_push_newest {stack : List Name} (h : stack.Nodup) (n m : Name) :
    m ∈ push_newest_model stack n ↔ m ∈ stack ∨ m = n := by
  rw [push_newest_model, List.mem_append, List.mem_singleton, h.mem_erase_iff]
  constructor
  · rintro (⟨_, hm⟩ | hm)
    · exact Or.inl hm
    · exact Or.inr hm
  · rintro (hm | hm)
    · by_cases he : m = n
      · exact Or.inr he
      · exact Or.inl ⟨he, hm⟩
    · exact Or.inr hm

theorem mem_of_mem_push_newest {stack : List Name} {n m : Name}
    (h : m ∈ push_newest_model stack n) : m ∈ stack ∨ m = n := by
  rw [push_newest_model, List.mem_append, List.mem_singleton] at h
  rcases h with h | h
  · exact Or.inl (List.mem_of_mem_erase h)
  · exact Or.inr h

theorem getLast?_push_newest (stack : List Name) (n : Name) :
    (push_newest_model stack n).getLast? = some n := by
  rw [push_newest_model, List.getLast?_concat]

/-! ### Effect lemmas for `offload_model` -/

theorem offload_model_cases (s : MCState) (o : Option Name) :
    offload_model s o = s ∨
    ∃ n r, o = some n ∧ lookupKey s.models n = some r ∧
      offload_model s o =
        { s with models := setKey s.models n { r with model := model_to_cpu s.device r.model } } := by
  match o with
  | Option.none => exact Or.inl rfl
  | some n =>
    cases hl : lookupKey s.models n with
    | none => exact Or.inl (by rw [offload_model, hl])
    | some r => exact Or.inr ⟨n, r, rfl, hl, by rw [offload_model, hl]⟩

theorem offload_config (s : MCState) (o : Option Name) :
    (offload_model s o).config = s.config := by
  rcases offload_model_cases s o with h | ⟨n, r, _, _, h⟩ <;> rw [h]

theorem offload_stack (s : MCState) (o : Option Name) :
    (offload_model s o).stack = s.stack := by
  rcases offload_model_cases s o with h | ⟨n, r, _, _, h⟩ <;> rw [h]

theorem offload_current (s : MCState) (o : Option Name) :
    (offload_model s o).current_model = s.current_model := by
  rcases offload_model_cases s o with h | ⟨n, r, _, _, h⟩ <;> rw [h]

theorem offload_max (s : MCState) (o : Option Name) :
    (offload_model s o).max_loaded_models = s.max_loaded_models := by
  rcases offload_model_cases s o with h | ⟨n, r, _, _, h⟩ <;> rw [h]

theorem offload_device (s : MCState) (o : Option Name) :
    (offload_model s o).device = s.device := by
  rcases offload_model_cases s o with h | ⟨n, r, _, _, h⟩ <;> rw [h]

theorem offload_loader_calls (s : MCState) (o : Option Name) :
    (offload_model s o).loader_calls = s.loader_calls := by
  rcases offload_model_cases s o with h | ⟨n, r, _, _, h⟩ <;> rw [h]

theorem offload_keys (s : MCState) (o : Option Name) :
    keys (offload_model s o).models = keys s.models := by
  rcases offload_model_cases s o with h | ⟨n, r, _, hl, h⟩
  · rw [h]
  · rw [h]
    exact keys_setKey_of_mem _ n _ (mem_keys_of_lookupKey hl)

theorem offload_length (s : MCState) (o : Option Name) :
    (offload_model s o).models.length = s.models.length := by
  rcases offload_model_cases s o with h | ⟨n, r, _, hl, h⟩
  · rw [h]
  · rw [h]
    exact length_setKey_of_mem _ n _ (mem_keys_of_lookupKey hl)

theorem offload_lookup_ne (s : MCState) (o : Option Name) (k : Name)
    (h : o ≠ some k) : lookupKey (offload_model s o).models k = lookupKey s.models k := by
  rcases offload_model_cases s o with he | ⟨n, r, ho, hl, he⟩
  · rw [he]
  · rw [he]
    exact lookupKey_setKey_ne _ n k _ (fun hk => h (ho ▸ (hk ▸ rfl)))

/-! ### Characterization of `make_cache_room` -/

theorem make_cache_room_under (s : MCState) (hc : ¬ s.max_loaded_models ≤ s.models.length) :
    make_cache_room s = .ok () s := by
  rw [make_cache_room, if_neg hc]

theorem make_cache_room_nil (s : MCState) (hs : s.stack = [])
    (hc : s.max_loaded_models ≤ s.models.length) : make_cache_room s = .exn s := by
  rw [make_cache_room, if_pos hc, hs]

theorem make_cache_room_cons (s : MCState) (least : Name) (rest : List Name)
    (hs : s.stack = least :: rest) (hc : s.max_loaded_models ≤ s.models.length) :
    make_cache_room s =
      (if containsKey s.models least then
        .ok () { s with stack := rest, models := delKey s.models least }
      else .exn { s with stack := rest }) := by
  rw [make_cache_room, if_pos hc, hs]

theorem make_cache_room_ok {s s' : MCState} (h : make_cache_room s = .ok () s') :
    (s.models.length < s.max_loaded_models ∧ s' = s) ∨
    (s.max_loaded_models ≤ s.models.length ∧ ∃ h0 rest, s.stack = h0 :: rest ∧
      h0 ∈ keys s.models ∧ s' = { s with stack := rest, models := delKey s.models h0 }) := by
  by_cases hc : s.max_loaded_models ≤ s.models.length
  · rcases hs : s.stack with _ | ⟨least, rest⟩
    · rw [make_cache_room_nil s hs hc] at h
      exact OpOut.noConfusion h
    · rw [make_cache_room_cons s least rest hs hc] at h
      by_cases hm : containsKey s.models least = true
      · rw [if_pos hm] at h
        refine Or.inr ⟨hc, least, rest, rfl, (containsKey_iff _ _).mp hm, ?_⟩
        cases h
        rfl
      · rw [if_neg hm] at h
        exact OpOut.noConfusion h
  · rw [make_cache_room_under s hc] at h
    cases h
    exact Or.inl ⟨Nat.lt_of_not_le hc, rfl⟩

theorem make_cache_room_exn {s s' : MCState} (h : make_cache_room s = .exn s') :
    s.max_loaded_models ≤ s.models.length ∧
    ((s.stack = [] ∧ s' = s) ∨
     ∃ h0 rest, s.stack = h0 :: rest ∧ h0 ∉ keys s.models ∧
       s' = { s with stack := rest }) := by
  by_cases hc : s.max_loaded_models ≤ s.models.length
  · refine ⟨hc, ?_⟩
    rcases hs : s.stack with _ | ⟨least, rest⟩
    · rw [make_cache_room_nil s hs hc] at h
      cases h
      exact Or.inl ⟨rfl, rfl⟩
    · rw [make_cache_room_cons s least rest hs hc] at h
      by_cases hm : containsKey s.models least = true
      · rw [if_pos hm] at h; exact OpOut.noConfusion h
      · rw [if_neg hm] at h
        cases h
        have hnm := (containsKey_eq_false_iff s.models least).mp (by simpa using hm)
        exact Or.inr ⟨least, rest, rfl, hnm, rfl⟩
  · rw [make_cache_room_under s hc] at h
    exact OpOut.noConfusion h

/-! ### Cache invariants -/

/-- The residency stack holds exactly the pool keys, each once. -/
def StackMatchesPool (s : MCState) : Prop :=
  s.stack.Nodup ∧ (keys s.models).Nodup ∧ ∀ n : Name, n ∈ s.stack ↔ n ∈ keys s.models

/-- The pool never exceeds the configured maximum. -/
def PoolBounded (s : MCState) : Prop := s.models.length ≤ s.max_loaded_models

/-- The current model, when set, is a registry key. -/
def CurrentRegistered (s : MCState) : Prop :=
  ∀ c, s.current_model = some c → c ∈ keys s.config

/-- The current model, when set, sits at the tail of the residency
stack. -/
def CurrentAtTail (s : MCState) : Prop :=
  ∀ c, s.current_model = some c → s.stack.getLast? = some c

/-- The current model has just been purged from the pool (the transient
situation `_make_cache_room` creates when the pool holds only the active
model), and the pool is strictly under capacity. -/
def CurrentEvicted (s : MCState) : Prop :=
  ∀ c, s.current_model = some c → c ∉ keys s.models ∧ s.models.length < s.max_loaded_models

/-- The invariant bundle maintained across `get_model`-only traces. -/
def GInv (s : MCState) : Prop := StackMatchesPool s ∧ PoolBounded s ∧ CurrentRegistered s

theorem nodup_append_singleton {α : Type} {l : List α} {a : α} (h : l.Nodup) (ha : a ∉ l) :
    (l ++ [a]).Nodup := by
  apply List.Nodup.append h (List.nodup_singleton a)
  intro x hx hb
  rw [List.mem_singleton] at hb
  exact ha (hb ▸ hx)

theorem length_setKey_of_not_mem {α : Type} (l : List (String × α)) (k : String) (v : α)
    (h : k ∉ keys l) : (setKey l k v).length = l.length + 1 := by
  rw [setKey, if_neg]
  · simp
  · rw [containsKey_iff]; exact h

/-! ### Characterization of `after_step1` -/

theorem after_step1_cur_eq {s : MCState} {name : Name} (h : s.current_model = some name) :
    after_step1 s name = .ok () s := by
  rw [after_step1, if_pos h]

theorem after_step1_resident {s : MCState} {name : Name} (hne : s.current_model ≠ some name)
    (hm : containsKey s.models name = true) :
    after_step1 s name = .ok () (offload_model s s.current_model) := by
  rw [after_step1, if_neg hne, if_pos hm]

theorem after_step1_room {s : MCState} {name : Name} (hne : s.current_model ≠ some name)
    (hm : ¬ containsKey s.models name = true) :
    after_step1 s name =
      (match make_cache_room s with
       | .ok _ s1 => .ok () (offload_model s1 s1.current_model)
       | .exn s1 => .exn s1) := by
  rw [after_step1, if_neg hne, if_neg hm]

theorem after_step1_cases {s s2 : MCState} {name : Name}
    (h : after_step1 s name = .ok () s2) :
    (s.current_model = some name ∧ s2 = s) ∨
    (s.current_model ≠ some name ∧ containsKey s.models name = true ∧
      s2 = offload_model s s.current_model) ∨
    (s.current_model ≠ some name ∧ containsKey s.models name = false ∧
      ∃ sR, make_cache_room s = .ok () sR ∧ s2 = offload_model sR sR.current_model) := by
  by_cases hc : s.current_model = some name
  · rw [after_step1_cur_eq hc] at h
    cases h
    exact Or.inl ⟨hc, rfl⟩
  · by_cases hm : containsKey s.models name = true
    · rw [after_step1_resident hc hm] at h
      cases h
      exact Or.inr (Or.inl ⟨hc, hm, rfl⟩)
    · rw [after_step1_room hc hm] at h
      cases hr : make_cache_room s with
      | ok u s1 =>
        rw [hr] at h
        cases h
        cases u
        exact Or.inr (Or.inr ⟨hc, by simpa using hm, s1, rfl, rfl⟩)
      | exn s1 =>
        rw [hr] at h
        exact OpOut.noConfusion h

theorem after_step1_exn {s s1 : MCState} {name : Name}
    (h : after_step1 s name = .exn s1) :
    s.current_model ≠ some name ∧ containsKey s.models name = false ∧
      make_cache_room s = .exn s1 := by
  by_cases hc : s.current_model = some name
  · rw [after_step1_cur_eq hc] at h; exact OpOut.noConfusion h
  · by_cases hm : containsKey s.models name = true
    · rw [after_step1_resident hc hm] at h; exact OpOut.noConfusion h
    · rw [after_step1_room hc hm] at h
      cases hr : make_cache_room s with
      | ok u s2 => rw [hr] at h; exact OpOut.noConfusion h
      | exn s2 =>
        rw [hr] at h
        cases h
        exact ⟨hc, by simpa using hm, rfl⟩

/-! ### Invariant preservation through `make_cache_room` and
`after_step1` -/

theorem room_ok_inv {s sR : MCState} (hsp : StackMatchesPool s)
    (h : make_cache_room s = .ok () sR) :
    StackMatchesPool sR ∧ sR.config = s.config ∧ sR.current_model = s.current_model ∧
    sR.max_loaded_models = s.max_loaded_models ∧ sR.device = s.device ∧
    sR.loader_calls = s.loader_calls ∧ sR.models.length ≤ s.models.length ∧
    (∀ k, k ∈ keys sR.models → k ∈ keys s.models) ∧
    (s.max_loaded_models ≤ s.models.length → sR.models.length + 1 = s.models.length) := by
  obtain ⟨hnd, hndk, hmem⟩ := hsp
  rcases make_cache_room_ok h with ⟨hlt, rfl⟩ | ⟨hge, h0, rest, hs, h0m, rfl⟩
  · exact ⟨⟨hnd, hndk, hmem⟩, rfl, rfl, rfl, rfl, rfl, le_refl _, fun k hk => hk,
      fun hc => absurd hlt (Nat.not_lt_of_le hc)⟩
  · have hrest : rest.Nodup := (hs ▸ hnd : (h0 :: rest).Nodup).of_cons
    have h0rest : h0 ∉ rest := (List.nodup_cons.mp (hs ▸ hnd)).1
    refine ⟨⟨hrest, nodup_keys_delKey hndk h0, ?_⟩, rfl, rfl, rfl, rfl, rfl,
      length_delKey_le _ _, ?_, ?_⟩
    · intro m
      rw [mem_keys_delKey]
      constructor
      · intro hm
        refine ⟨(hmem m).mp (hs ▸ List.mem_cons_of_mem h0 hm), ?_⟩
        intro he
        exact h0rest (he ▸ hm)
      · rintro ⟨hm, hne⟩
        have := (hmem m).mpr hm
        rw [hs, List.mem_cons] at this
        exact this.resolve_left hne
    · intro k hk
      exact (mem_keys_delKey s.models h0 k).mp hk |>.1
    · intro _
      exact length_delKey_add_one hndk h0m

theorem room_ok_tail {s sR : MCState} (hsp : StackMatchesPool s) (hb : PoolBounded s)
    (htail : CurrentAtTail s) (h : make_cache_room s = .ok () sR) :
    CurrentAtTail sR ∨ (CurrentEvicted sR ∧ sR.current_model = s.current_model) := by
  obtain ⟨hnd, hndk, hmem⟩ := hsp
  rcases make_cache_room_ok h with ⟨hlt, rfl⟩ | ⟨hge, h0, rest, hs, h0m, rfl⟩
  · exact Or.inl htail
  · cases rest with
    | nil =>
      right
      refine ⟨?_, rfl⟩
      intro c hc
      have hc' : s.current_model = some c := hc
      have hlast : s.stack.getLast? = some c := htail c hc'
      have hc0 : c = h0 := by
        rw [hs] at hlast
        simp [List.getLast?] at hlast
        exact hlast.symm
      constructor
      · show c ∉ keys (delKey s.models h0)
        rw [mem_keys_delKey]
        rintro ⟨_, hne⟩
        exact hne hc0
      · have h1 : (delKey s.models h0).length + 1 = s.models.length :=
          length_delKey_add_one hndk h0m
        have h2 : s.models.length ≤ s.max_loaded_models := hb
        show (delKey s.models h0).length < s.max_loaded_models
        omega
    | cons y t =>
      left
      intro c hc
      have hc' : s.current_model = some c := hc
      have hlast : s.stack.getLast? = some c := htail c hc'
      show (y :: t).getLast? = some c
      rw [hs, List.getLast?_cons_cons] at hlast
      exact hlast

theorem after_step1_ok {s s2 : MCState} {name : Name} (hsp : StackMatchesPool s)
    (hb : PoolBounded s) (h : after_step1 s name = .ok () s2) :
    StackMatchesPool s2 ∧ s2.config = s.config ∧ s2.current_model = s.current_model ∧
    s2.max_loaded_models = s.max_loaded_models ∧ s2.device = s.device ∧
    s2.loader_calls = s.loader_calls ∧ PoolBounded s2 ∧
    (∀ k, k ∈ keys s2.models → k ∈ keys s.models) ∧
    (containsKey s.models name = true → keys s2.models = keys s.models) ∧
    (s.current_model ≠ some name → containsKey s.models name = false →
        s2.models.length < s.max_loaded_models) := by
  have hoff : ∀ t : MCState, StackMatchesPool t → StackMatchesPool (offload_model t t.current_model) := by
    intro t ⟨h1, h2, h3⟩
    refine ⟨offload_stack t _ ▸ h1, offload_keys t _ ▸ h2, ?_⟩
    intro m
    rw [offload_stack, offload_keys]
    exact h3 m
  rcases after_step1_cases h with ⟨hc, rfl⟩ | ⟨hne, hm, rfl⟩ | ⟨hne, hm, sR, hroom, rfl⟩
  · exact ⟨hsp, rfl, rfl, rfl, rfl, rfl, hb, fun k hk => hk,
      fun _ => rfl, fun h1 h2 => absurd hc h1⟩
  · refine ⟨hoff s hsp, offload_config s _, offload_current s _, offload_max s _,
      offload_device s _, offload_loader_calls s _, ?_, ?_, ?_, ?_⟩
    · rw [PoolBounded, offload_length, offload_max]; exact hb
    · intro k hk; rw [offload_keys] at hk; exact hk
    · intro _; exact offload_keys s _
    · intro _ h2; exact absurd hm (by simp [h2])
  · obtain ⟨hspR, hcfg, hcur, hmax, hdev, hlc, hlen, hkeys, hpop⟩ := room_ok_inv hsp hroom
    refine ⟨hoff sR hspR, ?_, ?_, ?_, ?_, ?_, ?_, ?_, ?_, ?_⟩
    · rw [offload_config]; exact hcfg
    · rw [offload_current]; exact hcur
    · rw [offload_max]; exact hmax
    · rw [offload_device]; exact hdev
    · rw [offload_loader_calls]; exact hlc
    · rw [PoolBounded, offload_length, offload_max, hmax]
      exact le_trans hlen hb
    · intro k hk; rw [offload_keys] at hk; exact hkeys k hk
    · intro hm'; exact absurd hm' (by simp [hm])
    · intro _ _
      rw [offload_length]
      by_cases hge : s.max_loaded_models ≤ s.models.length
      · have h1 := hpop hge
        have h2 : s.models.length ≤ s.max_loaded_models := hb
        omega
      · have h1 : s.models.length < s.max_loaded_models := Nat.lt_of_not_le hge
        exact lt_of_le_of_lt hlen h1

theorem after_step1_ok_tail {s s2 : MCState} {name : Name} (hsp : StackMatchesPool s)
    (hb : PoolBounded s) (htail : CurrentAtTail s) (h : after_step1 s name = .ok () s2) :
    CurrentAtTail s2 ∨ (CurrentEvicted s2 ∧ s2.current_model = s.current_model) := by
  rcases after_step1_cases h with ⟨hc, rfl⟩ | ⟨hne, hm, rfl⟩ | ⟨hne, hm, sR, hroom, rfl⟩
  · exact Or.inl htail
  · left
    intro c hc
    rw [offload_current] at hc
    rw [offload_stack]
    exact htail c hc
  · rcases room_ok_tail hsp hb htail hroom with htR | ⟨hevR, hcurR⟩
    · left
      intro c hc
      rw [offload_current] at hc
      rw [offload_stack]
      exact htR c hc
    · right
      constructor
      · intro c hc
        rw [offload_current] at hc
        have := hevR c hc
        rw [offload_keys, offload_length, offload_max]
        exact this
      · rw [offload_current]; exact hcurR

/-! ### Evaluation lemmas for `get_model_step` -/

theorem get_model_step_none (ld : Name → Option ModelRecord)
    (recur : MCState → Option Name → Option (OpOut PyValue)) (s : MCState) :
    get_model_step ld recur s Option.none = some (.ok (pyOfCurrent s.current_model) s) := rfl

theorem get_model_step_invalid {s : MCState} {name : Name}
    (ld : Name → Option ModelRecord) (recur : MCState → Option Name → Option (OpOut PyValue))
    (hv : ¬ valid_model s name = true) :
    get_model_step ld recur s (some name) = some (.ok (pyOfCurrent s.current_model) s) := by
  simp [get_model_step, hv]

theorem get_model_step_exn {s s1 : MCState} {name : Name}
    (ld : Name → Option ModelRecord) (recur : MCState → Option Name → Option (OpOut PyValue))
    (hv : valid_model s name = true) (ha : after_step1 s name = .exn s1) :
    get_model_step ld recur s (some name) = some (.exn s1) := by
  simp only [get_model_step, hv, ha, reduceIte]

theorem get_model_step_resident {s s2 : MCState} {name : Name} {entry : ModelRecord}
    (ld : Name → Option ModelRecord) (recur : MCState → Option Name → Option (OpOut PyValue))
    (hv : valid_model s name = true) (ha : after_step1 s name = .ok () s2)
    (hl : lookupKey s2.models name = some entry) :
    get_model_step ld recur s (some name) = some (retrieve_resident s2 name entry) := by
  simp only [get_model_step, hv, ha, hl, reduceIte]

theorem get_model_step_load {s s2 : MCState} {name : Name} {loaded : ModelRecord}
    (ld : Name → Option ModelRecord) (recur : MCState → Option Name → Option (OpOut PyValue))
    (hv : valid_model s name = true) (ha : after_step1 s name = .ok () s2)
    (hl : lookupKey s2.models name = Option.none) (hld : ld name = some loaded) :
    get_model_step ld recur s (some name) = some (install_loaded s2 name loaded) := by
  simp only [get_model_step, hv, ha, hl, hld, reduceIte]

theorem get_model_step_fail {s s2 : MCState} {name : Name}
    (ld : Name → Option ModelRecord) (recur : MCState → Option Name → Option (OpOut PyValue))
    (hv : valid_model s name = true) (ha : after_step1 s name = .ok () s2)
    (hl : lookupKey s2.models name = Option.none) (hld : ld name = Option.none) :
    get_model_step ld recur s (some name) =
      (match recur { s2 with loader_calls := s2.loader_calls + 1 } s2.current_model with
       | some (.ok _ s4) => some (.ok PyValue.pynone s4)
       | some (.exn s4) => some (.exn s4)
       | Option.none => Option.none) := by
  simp only [get_model_step, hv, ha, hl, hld, reduceIte]

theorem retrieve_resident_eq (s2 : MCState) (name : Name) (entry : ModelRecord) :
    retrieve_resident s2 name entry =
      .ok (.pydict (model_from_cpu s2.device entry.model) entry.width entry.height entry.hash)
        { s2 with
            models := setKey s2.models name
              { entry with model := model_from_cpu s2.device entry.model },
            current_model := some name,
            stack := push_newest_model s2.stack name } := rfl

theorem install_loaded_eq (s2 : MCState) (name : Name) (loaded : ModelRecord) :
    install_loaded s2 name loaded =
      .ok (.pydict loaded.model loaded.width loaded.height loaded.hash)
        { s2 with models := setKey s2.models name loaded,
                  loader_calls := s2.loader_calls + 1,
                  current_model := some name,
                  stack := push_newest_model s2.stack name } := rfl

/-- The state written by both the resident-retrieval arm and the
fresh-load arm of `get_model`: new pool contents, current model set to
the requested name, name pushed to the stack tail. -/
def touched_state (s2 : MCState) (name : Name) (lc : Nat)
    (newModels : List (Name × ModelRecord)) : MCState :=
  { s2 with models := newModels,
            current_model := some name,
            stack := push_newest_model s2.stack name,
            loader_calls := lc }

theorem touch_state_inv (s2 : MCState) (name : Name) (lc : Nat)
    (newModels : List (Name × ModelRecord))
    (hkeys : ∀ m, m ∈ keys newModels ↔ m ∈ keys s2.models ∨ m = name)
    (hnodup : (keys newModels).Nodup)
    (hlen : newModels.length ≤ s2.max_loaded_models)
    (hsp : StackMatchesPool s2) (hreg : name ∈ keys s2.config) :
    GInv (touched_state s2 name lc newModels) ∧
    CurrentAtTail (touched_state s2 name lc newModels) := by
  obtain ⟨hnd, hndk, hmem⟩ := hsp
  refine ⟨⟨⟨push_newest_nodup hnd name, hnodup, ?_⟩, hlen, ?_⟩, ?_⟩
  · intro m
    show m ∈ push_newest_model s2.stack name ↔ m ∈ keys newModels
    rw [mem_push_newest hnd, hkeys m, hmem m]
  · intro c hc
    simp only [touched_state] at hc
    cases hc
    show name ∈ keys s2.config
    exact hreg
  · intro c hc
    simp only [touched_state] at hc
    cases hc
    show (push_newest_model s2.stack name).getLast? = some name
    exact getLast?_push_newest s2.stack name

theorem retrieve_resident_touched (s2 : MCState) (name : Name) (entry : ModelRecord) :
    retrieve_resident s2 name entry =
      .ok (.pydict (model_from_cpu s2.device entry.model) entry.width entry.height entry.hash)
        (touched_state s2 name s2.loader_calls
          (setKey s2.models name
            { entry with model := model_from_cpu s2.device entry.model })) := rfl

theorem install_loaded_touched (s2 : MCState) (name : Name) (loaded : ModelRecord) :
    install_loaded s2 name loaded =
      .ok (.pydict loaded.model loaded.width loaded.height loaded.hash)
        (touched_state s2 name (s2.loader_calls + 1) (setKey s2.models name loaded)) := rfl

/-! ### The main invariant of `get_model`-only traces -/

theorem get_model_GInv (ld : Name → Option ModelRecord) :
    ∀ (fuel : Nat) (s : MCState) (nameOpt : Option Name) (out : OpOut PyValue),
    GInv s →
    (CurrentAtTail s ∨ (nameOpt = s.current_model ∧ CurrentEvicted s)) →
    get_model ld fuel s nameOpt = some out →
    GInv out.state ∧ CurrentAtTail out.state := by
  intro fuel
  induction fuel with
  | zero =>
    intro s nameOpt out _ _ h
    rw [get_model_zero] at h
    exact Option.noConfusion h
  | succ fuel ih =>
    intro s nameOpt out hInv hdisj hrun
    obtain ⟨hsp, hb, hreg⟩ := hInv
    rw [get_model_succ] at hrun
    cases nameOpt with
    | none =>
      rw [get_model_step_none] at hrun
      cases hrun
      refine ⟨⟨hsp, hb, hreg⟩, ?_⟩
      show CurrentAtTail s
      rcases hdisj with h | ⟨heq, hev⟩
      · exact h
      · intro c hc
        rw [hc] at heq
        exact Option.noConfusion heq
    | some name =>
      by_cases hv : valid_model s name = true
      case neg =>
        rw [get_model_step_invalid ld (get_model ld fuel) hv] at hrun
        cases hrun
        refine ⟨⟨hsp, hb, hreg⟩, ?_⟩
        show CurrentAtTail s
        rcases hdisj with h | ⟨heq, hev⟩
        · exact h
        · exfalso
          apply hv
          rw [valid_model, containsKey_iff]
          exact hreg name heq.symm
      case pos =>
        have hregname : name ∈ keys s.config := by
          rw [valid_model, containsKey_iff] at hv
          exact hv
        cases ha : after_step1 s name with
        | exn s1 =>
          rw [get_model_step_exn ld (get_model ld fuel) hv ha] at hrun
          cases hrun
          obtain ⟨hne, hmf, hroom⟩ := after_step1_exn ha
          obtain ⟨hge, hsh⟩ := make_cache_room_exn hroom
          rcases hsh with ⟨hnil, rfl⟩ | ⟨h0, rest, hs, h0nm, rfl⟩
          · refine ⟨⟨hsp, hb, hreg⟩, ?_⟩
            rcases hdisj with h | ⟨heq, hev⟩
            · exact h
            · exact absurd heq.symm hne
          · exfalso
            apply h0nm
            exact (hsp.2.2 h0).mp (hs ▸ List.mem_cons_self h0 rest)
        | ok u s2 =>
          cases u
          obtain ⟨hsp2, hcfg2, hcur2, hmax2, hdev2, hlc2, hb2, hsub2, hkeq2, hroomlt2⟩ :=
            after_step1_ok hsp hb ha
          have hregname2 : name ∈ keys s2.config := hcfg2 ▸ hregname
          cases hl : lookupKey s2.models name with
          | some entry =>
            rw [get_model_step_resident ld (get_model ld fuel) hv ha hl,
              retrieve_resident_touched] at hrun
            cases hrun
            have hmem2 : name ∈ keys s2.models := mem_keys_of_lookupKey hl
            have hkeq : keys (setKey s2.models name
                { entry with model := model_from_cpu s2.device entry.model }) =
                keys s2.models := keys_setKey_of_mem _ name _ hmem2
            refine touch_state_inv s2 name s2.loader_calls _ ?_ ?_ ?_ hsp2 hregname2
            · intro m
              rw [hkeq]
              constructor
              · exact Or.inl
              · rintro (hm | rfl)
                · exact hm
                · exact hmem2
            · rw [hkeq]; exact hsp2.2.1
            · rw [length_setKey_of_mem _ name _ hmem2]
              exact hb2
          | none =>
            have hnm2 : name ∉ keys s2.models := (lookupKey_eq_none_iff _ _).mp hl
            cases hld : ld name with
            | some loaded =>
              rw [get_model_step_load ld (get_model ld fuel) hv ha hl hld,
                install_loaded_touched] at hrun
              cases hrun
              have hlt2 : s2.models.length < s2.max_loaded_models := by
                by_cases hc : s.current_model = some name
                · -- `after_step1` was the identity: the requested model is
                  -- current yet absent from the pool, so it was just evicted
                  rcases after_step1_cases ha with ⟨_, rfl⟩ | ⟨hne, _, _⟩ | ⟨hne, _, _⟩
                  · rcases hdisj with htail | ⟨heq, hev⟩
                    · exfalso
                      apply hnm2
                      have hmem := htail name hc
                      exact (hsp.2.2 name).mp (mem_of_getLast?_eq hmem)
                    · exact (hev name hc).2
                  · exact absurd hc hne
                  · exact absurd hc hne
                · have hmf : containsKey s.models name = false := by
                    by_cases hmt : containsKey s.models name = true
                    · exfalso
                      apply hnm2
                      rw [hkeq2 hmt]
                      exact (containsKey_iff _ _).mp hmt
                    · simpa using hmt
                  have := hroomlt2 hc hmf
                  rw [hmax2]
                  exact this
              refine touch_state_inv s2 name (s2.loader_calls + 1) _ ?_ ?_ ?_ hsp2 hregname2
              · intro m
                rw [keys_setKey_of_not_mem _ name _ hnm2, List.mem_append, List.mem_singleton]
              · rw [keys_setKey_of_not_mem _ name _ hnm2]
                exact nodup_append_singleton hsp2.2.1 hnm2
              · rw [length_setKey_of_not_mem _ name _ hnm2]
                exact hlt2
            | none =>
              rw [get_model_step_fail ld (get_model ld fuel) hv ha hl hld] at hrun
              cases hr : get_model ld fuel { s2 with loader_calls := s2.loader_calls + 1 }
                  s2.current_model with
              | none => rw [hr] at hrun; exact Option.noConfusion hrun
              | some out4 =>
                rw [hr] at hrun
                have hG3 : GInv { s2 with loader_calls := s2.loader_calls + 1 } := by
                  refine ⟨⟨hsp2.1, hsp2.2.1, ?_⟩, ?_, ?_⟩
                  · intro m; exact hsp2.2.2 m
                  · exact hb2
                  · intro c hc
                    have hc' : s2.current_model = some c := hc
                    show c ∈ keys s2.config
                    rw [hcfg2]
                    rw [hcur2] at hc'
                    exact hreg c hc'
                have hdisj3 : CurrentAtTail { s2 with loader_calls := s2.loader_calls + 1 } ∨
                    (s2.current_model =
                        ({ s2 with loader_calls := s2.loader_calls + 1 } : MCState).current_model ∧
                      CurrentEvicted { s2 with loader_calls := s2.loader_calls + 1 }) := by
                  rcases hdisj with htail | ⟨heq, hev⟩
                  · rcases after_step1_ok_tail hsp hb htail ha with ht2 | ⟨hev2, _⟩
                    · left
                      intro c hc
                      exact ht2 c hc
                    · right
                      refine ⟨rfl, ?_⟩
                      intro c hc
                      exact hev2 c hc
                  · -- the requested model was already current, so `after_step1`
                    -- was the identity and the outer eviction evidence carries over
                    rcases after_step1_cases ha with ⟨_, rfl⟩ | ⟨hne, _, _⟩ | ⟨hne, _, _⟩
                    · right
                      refine ⟨rfl, ?_⟩
                      intro c hc
                      exact hev c hc
                    · exact absurd heq.symm hne
                    · exact absurd heq.symm hne
                have hout4 := ih { s2 with loader_calls := s2.loader_calls + 1 }
                  s2.current_model out4 hG3 hdisj3 hr
                cases out4 with
                | ok v4 s4 =>
                  cases hrun
                  exact hout4
                | exn s4 =>
                  cases hrun
                  exact hout4

/-! ### Reachability by `get_model` calls -/

/-- States reachable from a freshly constructed cache by public
`get_model` calls (whether they return or raise). -/
inductive ReachG : MCState → Prop
  | init (cfg : List (Name × Attrs)) (device precision : String) (m : Nat) :
      ReachG (init_state cfg device precision m)
  | step {s : MCState} {out : OpOut PyValue} (ld : Name → Option ModelRecord)
      (fuel : Nat) (n : Name) :
      ReachG s → get_model ld fuel s (some n) = some out → ReachG out.state

theorem reachG_inv {s : MCState} (h : ReachG s) : GInv s ∧ CurrentAtTail s := by
  induction h with
  | init cfg device precision m =>
    refine ⟨⟨⟨List.nodup_nil, List.nodup_nil, ?_⟩, ?_, ?_⟩, ?_⟩
    · intro n
      show n ∈ ([] : List Name) ↔ n ∈ keys ([] : List (Name × ModelRecord))
      simp [keys]
    · exact Nat.zero_le m
    · intro c hc; exact Option.noConfusion hc
    · intro c hc; exact Option.noConfusion hc
  | step ld fuel n hs heq ih =>
    exact get_model_GInv ld fuel _ _ _ ih.1 (Or.inl ih.2) heq

theorem length_eq_of_nodup_mem_iff :
    ∀ {l1 l2 : List String}, l1.Nodup → l2.Nodup → (∀ a, a ∈ l1 ↔ a ∈ l2) →
      l1.length = l2.length := by
  intro l1
  induction l1 with
  | nil =>
    intro l2 _ h2 hm
    cases l2 with
    | nil => rfl
    | cons b t => exact absurd ((hm b).mpr (List.mem_cons_self b t)) (List.not_mem_nil b)
  | cons a t ih =>
    intro l2 h1 h2 hm
    have ha : a ∈ l2 := (hm a).mp (List.mem_cons_self a t)
    have hmt : ∀ x, x ∈ t ↔ x ∈ l2.erase a := by
      intro x
      rw [h2.mem_erase_iff]
      constructor
      · intro hx
        refine ⟨?_, (hm x).mp (List.mem_cons_of_mem a hx)⟩
        intro he
        exact (List.nodup_cons.mp h1).1 (he ▸ hx)
      · rintro ⟨hne, hx⟩
        rcases List.mem_cons.mp ((hm x).mpr hx) with he | hx'
        · exact absurd he hne
        · exact hx'
    have h1t : t.Nodup := (List.nodup_cons.mp h1).2
    have h2e : (l2.erase a).Nodup := h2.erase a
    have := ih h1t h2e hmt
    have hlen : (l2.erase a).length = l2.length - 1 := List.length_erase_of_mem ha
    have hpos : 1 ≤ l2.length := List.length_pos.mpr (List.ne_nil_of_mem ha)
    rw [List.length_cons, this, hlen]
    omega

theorem head?_ne_getLast?_of_nodup {l : List String} (h : l.Nodup) (hlen : 2 ≤ l.length)
    {a : String} (hl : l.getLast? = some a) : l.head? ≠ some a := by
  cases l with
  | nil => simp at hlen
  | cons x t =>
    cases t with
    | nil => simp at hlen
    | cons y u =>
      intro hh
      have hx : x = a := by simpa [List.head?] using hh
      rw [List.getLast?_cons_cons] at hl
      have hmem : a ∈ y :: u := mem_of_getLast?_eq hl
      rw [← hx] at hmem
      exact (List.nodup_cons.mp h).1 hmem

/-! ### Concrete states used by witnesses and counterexamples -/

def attrs_full : Attrs :=
  [("description", .str "d"), ("weights", .str "w"), ("height", .num 512),
   ("width", .num 512), ("config", .str "c")]

def cfgA : List (Name × Attrs) := [("A", attrs_full)]
def cfgAB : List (Name × Attrs) := [("A", attrs_full), ("B", attrs_full)]
def cfgABC : List (Name × Attrs) :=
  [("A", attrs_full), ("B", attrs_full), ("C", attrs_full)]

def recA : ModelRecord := ⟨⟨1, "cuda"⟩, 512, 512, "h1"⟩
def recA_cpu : ModelRecord := ⟨⟨1, "cpu"⟩, 512, 512, "h1"⟩

/-- A loader oracle that succeeds for every name. -/
def ld_any : Name → Option ModelRecord := fun _ => some recA

/-- A loader oracle that fails (raises) for every name. -/
def ld_fail : Name → Option ModelRecord := fun _ => Option.none

/-- A loader oracle that succeeds only for the name `A`. -/
def ld_onlyA : Name → Option ModelRecord :=
  fun n => if n = "A" then some recA else Option.none

def s0max1 : MCState := init_state cfgAB "cuda" "float32" 1

def s1max1 : MCState :=
  { s0max1 with models := [("A", recA)], stack := ["A"],
                current_model := some "A", loader_calls := 1 }

theorem s1max1_step :
    get_model ld_any 1 s0max1 (some "A") =
      some (.ok (.pydict ⟨1, "cuda"⟩ 512 512 "h1") s1max1) := by decide

theorem s1max1_reach : ReachG s1max1 :=
  ReachG.step ld_any 1 "A" (ReachG.init cfgAB "cuda" "float32" 1) s1max1_step

def s0max2 : MCState := init_state cfgABC "cuda" "float32" 2

def s1max2 : MCState :=
  { s0max2 with models := [("A", recA)], stack := ["A"],
                current_model := some "A", loader_calls := 1 }

theorem s1max2_step :
    get_model ld_any 1 s0max2 (some "A") =
      some (.ok (.pydict ⟨1, "cuda"⟩ 512 512 "h1") s1max2) := by decide

theorem s1max2_reach : ReachG s1max2 :=
  ReachG.step ld_any 1 "A" (ReachG.init cfgABC "cuda" "float32" 2) s1max2_step

def s2max2 : MCState :=
  { s0max2 with models := [("A", recA_cpu), ("B", recA)], stack := ["A", "B"],
                current_model := some "B", loader_calls := 2 }

theorem s2max2_step :
    get_model ld_any 1 s1max2 (some "B") =
      some (.ok (.pydict ⟨1, "cuda"⟩ 512 512 "h1") s2max2) := by decide

theorem s2max2_reach : ReachG s2max2 :=
  ReachG.step ld_any 1 "B" s1max2_reach s2max2_step

/-! ### Claim C1 -/

/-- Claim C1: for every sequence of `get_model` calls starting from an
empty cache with `max_loaded_models ≥ 1`, the loaded-model pool holds at
most `max_loaded_models` entries after each call. -/
theorem C1_pool_bounded {s : MCState} (h : ReachG s)
    (hmax : 1 ≤ s.max_loaded_models) :
    s.models.length ≤ s.max_loaded_models :=
  (reachG_inv h).1.2.1

theorem C1_pool_bounded_witness :
    ReachG s2max2 ∧ 1 ≤ s2max2.max_loaded_models ∧
    s2max2.models.length ≤ s2max2.max_loaded_models :=
  ⟨s2max2_reach, by decide, C1_pool_bounded s2max2_reach (by decide)⟩

/-! ### Claim C2 -/

/-- Claim C2 (amended: `max_loaded_models ≥ 2` instead of `≥ 1`): in a
`get_model`-only trace, whenever a `get_model` call is about to evict
(the requested name is valid, not current, not resident, and the pool is
at capacity), the head of the residency stack popped by
`_make_cache_room` is never the active model.  With
`max_loaded_models = 1` the active model itself is evicted (see the
counterexample). -/
theorem C2_active_not_evicted {s : MCState} {n c : Name}
    (h : ReachG s) (hmax : 2 ≤ s.max_loaded_models)
    (hvalid : valid_model s n = true) (hne : s.current_model ≠ some n)
    (hnres : containsKey s.models n = false)
    (hfull : s.max_loaded_models ≤ s.models.length)
    (hcur : s.current_model = some c) :
    s.stack.head? ≠ some c := by
  obtain ⟨⟨⟨hnd, hndk, hmem⟩, hb, hreg⟩, htail⟩ := reachG_inv h
  have hlast : s.stack.getLast? = some c := htail c hcur
  have hlen : s.stack.length = s.models.length := by
    rw [← keys_length s.models]
    exact length_eq_of_nodup_mem_iff hnd hndk hmem
  apply head?_ne_getLast?_of_nodup hnd ?_ hlast
  omega

theorem C2_active_not_evicted_witness :
    ReachG s2max2 ∧ 2 ≤ s2max2.max_loaded_models ∧ valid_model s2max2 "C" = true ∧
    s2max2.current_model ≠ some "C" ∧ containsKey s2max2.models "C" = false ∧
    s2max2.max_loaded_models ≤ s2max2.models.length ∧
    s2max2.current_model = some "B" ∧ s2max2.stack.head? ≠ some "B" :=
  ⟨s2max2_reach, by decide, by decide, by decide, by decide, by decide, rfl,
    @C2_active_not_evicted s2max2 "C" "B" s2max2_reach (by decide) (by decide)
      (by decide) (by decide) (by decide) rfl⟩

/-- Claim C2 counterexample: with `max_loaded_models = 1` (the claim
allows any maximum ≥ 1), at the reachable state holding only the active
model `A`, a `get_model` call for `B` satisfies the eviction
precondition, and the entry `_make_cache_room` pops and purges is the
head of the stack — which is exactly the active model: afterwards
`current_model` is still `A` but `A` is gone from the pool. -/
theorem C2_counterexample :
    ReachG s1max1 ∧
    s1max1.max_loaded_models = 1 ∧
    s1max1.current_model = some "A" ∧
    valid_model s1max1 "B" = true ∧
    s1max1.current_model ≠ some "B" ∧
    containsKey s1max1.models "B" = false ∧
    s1max1.max_loaded_models ≤ s1max1.models.length ∧
    s1max1.stack.head? = some "A" ∧
    (make_cache_room s1max1).state.current_model = some "A" ∧
    containsKey (make_cache_room s1max1).state.models "A" = false :=
  ⟨s1max1_reach, by decide, by decide, by decide, by decide, by decide, by decide,
    by decide, by decide, by decide⟩

/-! ### Reachability by the full public operation set -/

/-- States reachable from a freshly constructed cache by any of the
public cache operations (`get_model`, `offload_model`, `del_model`,
`add_model`, `set_default_model`), whether each call returns or
raises. -/
inductive ReachAll : MCState → Prop
  | init (cfg : List (Name × Attrs)) (device precision : String) (m : Nat) :
      ReachAll (init_state cfg device precision m)
  | get {s : MCState} {out : OpOut PyValue} (ld : Name → Option ModelRecord)
      (fuel : Nat) (n : Name) :
      ReachAll s → get_model ld fuel s (some n) = some out → ReachAll out.state
  | offload {s : MCState} (n : Name) : ReachAll s → ReachAll (offload_model s (some n))
  | del {s : MCState} (n : Name) : ReachAll s → ReachAll (del_model s n).state
  | add {s : MCState} (n : Name) (attrs : Attrs) (clobber : Bool) :
      ReachAll s → ReachAll (add_model s n attrs clobber).state
  | setdef {s : MCState} (n : Name) : ReachAll s → ReachAll (set_default_model s n).state

def s0A : MCState := init_state cfgA "cuda" "float32" 2

def s1A : MCState :=
  { s0A with models := [("A", recA)], stack := ["A"],
             current_model := some "A", loader_calls := 1 }

theorem s1A_step :
    get_model ld_any 1 s0A (some "A") =
      some (.ok (.pydict ⟨1, "cuda"⟩ 512 512 "h1") s1A) := by decide

theorem s1A_reachAll : ReachAll s1A :=
  ReachAll.get ld_any 1 "A" (ReachAll.init cfgA "cuda" "float32" 2) s1A_step

/-- The state after `get_model A; del_model A`: the registry entry is
gone and `A` left the residency stack, but the pool still holds `A`'s
record and `current_model` still names it. -/
def s_delA : MCState := { s1A with config := [], stack := [] }

theorem s_delA_eq : del_model s1A "A" = .ok true s_delA := by decide

theorem s_delA_reachAll : ReachAll s_delA := by
  have h := ReachAll.del "A" s1A_reachAll
  have e : (del_model s1A "A").state = s_delA := by decide
  exact e ▸ h

/-! ### Claim C5 -/

/-- Claim C5 (amended): a `get_model` call with a name that is not a
registry entry leaves the state (ActiveModel, pool, FIFO) unchanged and
does not raise, but it returns the value of `self.current_model` — the
current model's name as a string (or Python `None`) — not the current
model's LoadedModel record. -/
theorem C5_unknown_name {s : MCState} {name : Name} (ld : Name → Option ModelRecord)
    (fuel : Nat) (h : valid_model s name = false) :
    get_model ld (fuel + 1) s (some name) =
      some (.ok (pyOfCurrent s.current_model) s) := by
  rw [get_model_succ]
  exact get_model_step_invalid ld (get_model ld fuel) (by simp [h])

theorem C5_unknown_name_witness :
    valid_model s1max2 "Z" = false ∧
    get_model ld_any 1 s1max2 (some "Z") =
      some (.ok (pyOfCurrent s1max2.current_model) s1max2) :=
  ⟨by decide, C5_unknown_name ld_any 0 (by decide)⟩

/-- Claim C5 counterexample: at the reachable state where `A` is current
and its record sits in the pool, `get_model` on the unknown name `Z`
returns the plain string `A` (the value of `self.current_model`), not
the current model's record dict: the returned value is not a dict. -/
theorem C5_counterexample :
    ReachG s1max2 ∧
    valid_model s1max2 "Z" = false ∧
    s1max2.current_model = some "A" ∧
    (lookupKey s1max2.models "A").isSome = true ∧
    get_model ld_any 1 s1max2 (some "Z") = some (.ok (.pystr "A") s1max2) ∧
    PyValue.is_dict (.pystr "A") = false :=
  ⟨s1max2_reach, by decide, by decide, by decide, by decide, by decide⟩

/-! ### Claim C7 -/

/-- Claim C7 (amended: the name must also still be a registry entry):
a `get_model` call for a name whose record is pool-resident and which is
still registered returns that record with its model object transferred
to the configured device, stores the moved object back in the pool,
leaves the loader-invocation count unchanged (the loader is not called),
and evicts nothing (the pool keys are unchanged). -/
theorem C7_resident_no_loader {s : MCState} {name : Name} {entry : ModelRecord}
    (ld : Name → Option ModelRecord) (fuel : Nat)
    (hvalid : valid_model s name = true)
    (hres : lookupKey s.models name = some entry) :
    ∃ s', get_model ld (fuel + 1) s (some name) =
        some (.ok (.pydict (model_from_cpu s.device entry.model)
          entry.width entry.height entry.hash) s') ∧
      s'.loader_calls = s.loader_calls ∧
      keys s'.models = keys s.models ∧
      s'.current_model = some name ∧
      lookupKey s'.models name =
        some { entry with model := model_from_cpu s.device entry.model } := by
  rw [get_model_succ]
  by_cases hc : s.current_model = some name
  · have ha : after_step1 s name = .ok () s := after_step1_cur_eq hc
    rw [get_model_step_resident ld (get_model ld fuel) hvalid ha hres,
      retrieve_resident_touched]
    refine ⟨_, rfl, ?_, ?_, rfl, ?_⟩
    · show s.loader_calls = s.loader_calls
      rfl
    · show keys (setKey s.models name
        { entry with model := model_from_cpu s.device entry.model }) = keys s.models
      exact keys_setKey_of_mem _ name _ (mem_keys_of_lookupKey hres)
    · show lookupKey (setKey s.models name
        { entry with model := model_from_cpu s.device entry.model }) name = _
      exact lookupKey_setKey_self _ name _
  · have hm : containsKey s.models name = true :=
      (containsKey_iff _ _).mpr (mem_keys_of_lookupKey hres)
    have ha : after_step1 s name = .ok () (offload_model s s.current_model) :=
      after_step1_resident hc hm
    have hlook2 : lookupKey (offload_model s s.current_model).models name = some entry := by
      rw [offload_lookup_ne s s.current_model name (fun he => hc he)]
      exact hres
    rw [get_model_step_resident ld (get_model ld fuel) hvalid ha hlook2,
      retrieve_resident_touched, offload_device]
    refine ⟨_, rfl, ?_, ?_, rfl, ?_⟩
    · show (offload_model s s.current_model).loader_calls = s.loader_calls
      exact offload_loader_calls s _
    · show keys (setKey (offload_model s s.current_model).models name
        { entry with model := model_from_cpu s.device entry.model }) = keys s.models
      rw [keys_setKey_of_mem _ name _ (mem_keys_of_lookupKey hlook2)]
      exact offload_keys s _
    · show lookupKey (setKey (offload_model s s.current_model).models name
        { entry with model := model_from_cpu s.device entry.model }) name = _
      exact lookupKey_setKey_self _ name _

theorem C7_resident_no_loader_witness :
    valid_model s1max2 "A" = true ∧ lookupKey s1max2.models "A" = some recA ∧
    ∃ s', get_model ld_fail 1 s1max2 (some "A") =
        some (.ok (.pydict (model_from_cpu s1max2.device recA.model)
          recA.width recA.height recA.hash) s') ∧
      s'.loader_calls = s1max2.loader_calls ∧
      keys s'.models = keys s1max2.models ∧
      s'.current_model = some "A" ∧
      lookupKey s'.models "A" =
        some { recA with model := model_from_cpu s1max2.device recA.model } :=
  ⟨by decide, by decide, C7_resident_no_loader ld_fail 0 (by decide) (by decide)⟩

/-- Claim C7 counterexample: after `get_model A; del_model A` the record
for `A` is still pool-resident, yet `get_model A` does not transfer or
return it: `A` is no longer a registry entry, so the call takes the
unknown-name early return and hands back the string `A` instead of the
record dict. -/
theorem C7_counterexample :
    ReachAll s_delA ∧
    lookupKey s_delA.models "A" = some recA ∧
    get_model ld_any 1 s_delA (some "A") = some (.ok (.pystr "A") s_delA) ∧
    PyValue.is_dict (.pystr "A") = false :=
  ⟨s_delA_reachAll, by decide, by decide, by decide⟩

/-! ### Claim C6 -/

/-- Claim C6 (amended: requires `max_loaded_models ≥ 2`; with capacity 1
the recovery can recurse without bound, see the counterexample): in a
`get_model`-only trace, when the loader fails for a valid, non-current,
non-resident name, the exception is caught, the previously active model
is re-acquired, and the call returns Python `None` with `current_model`
still naming the previous active model. -/
theorem C6_loader_failure_recovery {s : MCState} {n : Name}
    (ld : Name → Option ModelRecord) (fuel : Nat)
    (h : ReachG s) (hmax : 2 ≤ s.max_loaded_models)
    (hvalid : valid_model s n = true)
    (hne : s.current_model ≠ some n)
    (hnres : containsKey s.models n = false)
    (hld : ld n = Option.none) :
    ∃ s', get_model ld (fuel + 2) s (some n) = some (.ok PyValue.pynone s') ∧
      s'.current_model = s.current_model := by
  obtain ⟨⟨hsp, hb, hreg⟩, htail⟩ := reachG_inv h
  obtain ⟨hnd, hndk, hmem⟩ := hsp
  have hmb : ¬ containsKey s.models n = true := by simp [hnres]
  have hlenstack : s.stack.length = s.models.length := by
    rw [← keys_length s.models]
    exact length_eq_of_nodup_mem_iff hnd hndk hmem
  -- the stack cannot be empty at capacity, so `_make_cache_room` succeeds
  cases hroom : make_cache_room s with
  | exn s1 =>
    exfalso
    obtain ⟨hge, hsh⟩ := make_cache_room_exn hroom
    rcases hsh with ⟨hnil, _⟩ | ⟨h0, rest, hs, h0nm, _⟩
    · rw [hnil] at hlenstack
      simp at hlenstack
      omega
    · exact h0nm ((hmem h0).mp (hs ▸ List.mem_cons_self h0 rest))
  | ok u sR =>
    cases u
    have ha : after_step1 s n = .ok () (offload_model sR sR.current_model) := by
      rw [after_step1_room hne hmb, hroom]
    obtain ⟨hsp2, hcfg2, hcur2, hmax2, hdev2, hlc2, hb2, hsub2, hkeq2, hroomlt2⟩ :=
      after_step1_ok ⟨hnd, hndk, hmem⟩ hb ha
    have hl : lookupKey (offload_model sR sR.current_model).models n = Option.none := by
      rw [lookupKey_eq_none_iff]
      intro hmemn
      have := hsub2 n hmemn
      rw [← containsKey_iff] at this
      rw [hnres] at this
      exact Bool.noConfusion this
    rw [show fuel + 2 = (fuel + 1) + 1 from rfl, get_model_succ,
      get_model_step_fail ld (get_model ld (fuel + 1)) hvalid ha hl hld]
    cases hcurS : s.current_model with
    | none =>
      have he : (offload_model sR sR.current_model).current_model = (Option.none : Option Name) := by
        rw [hcur2, hcurS]
      have hinner : get_model ld (fuel + 1)
          { offload_model sR sR.current_model with
            loader_calls := (offload_model sR sR.current_model).loader_calls + 1 }
          ((offload_model sR sR.current_model).current_model) =
          some (.ok PyValue.pynone
            { offload_model sR sR.current_model with
              loader_calls := (offload_model sR sR.current_model).loader_calls + 1 }) := by
        rw [he, get_model_succ, get_model_step_none]
        simp [pyOfCurrent, he]
      rw [hinner]
      refine ⟨_, rfl, ?_⟩
      show (offload_model sR sR.current_model).current_model = (Option.none : Option Name)
      exact he
    | some c =>
      -- the previously active model survived the eviction: it sits at
      -- the stack tail while only the head was popped, and the stack had
      -- at least two entries (pool at capacity ≥ 2)
      have hc2mem : c ∈ keys (offload_model sR sR.current_model).models := by
        rw [offload_keys]
        have hcstack : c ∈ s.stack := mem_of_getLast?_eq (htail c hcurS)
        rcases make_cache_room_ok hroom with ⟨hlt, rfl⟩ | ⟨hge, h0, rest, hs, h0m, rfl⟩
        · exact (hmem c).mp hcstack
        · show c ∈ keys (delKey s.models h0)
          cases rest with
          | nil =>
            exfalso
            rw [hs] at hlenstack
            simp at hlenstack
            have hb' : s.models.length ≤ s.max_loaded_models := hb
            omega
          | cons y t =>
            have hlast : (y :: t).getLast? = some c := by
              have := htail c hcurS
              rw [hs, List.getLast?_cons_cons] at this
              exact this
            have hcrest : c ∈ y :: t := mem_of_getLast?_eq hlast
            rw [mem_keys_delKey]
            refine ⟨(hmem c).mp (hs ▸ List.mem_cons_of_mem h0 hcrest), ?_⟩
            intro he
            exact (List.nodup_cons.mp (hs ▸ hnd)).1 (he ▸ hcrest)
      obtain ⟨entry, hentry⟩ := lookupKey_exists_of_mem hc2mem
      have hvalid3 : valid_model
          { offload_model sR sR.current_model with
            loader_calls := (offload_model sR sR.current_model).loader_calls + 1 } c = true := by
        show containsKey (offload_model sR sR.current_model).config c = true
        rw [hcfg2, containsKey_iff]
        exact hreg c hcurS
      have hcur3 : ({ offload_model sR sR.current_model with
          loader_calls := (offload_model sR sR.current_model).loader_calls + 1 } :
            MCState).current_model = some c := by
        show (offload_model sR sR.current_model).current_model = some c
        rw [hcur2, hcurS]
      have hl3 : lookupKey ({ offload_model sR sR.current_model with
          loader_calls := (offload_model sR sR.current_model).loader_calls + 1 } :
            MCState).models c = some entry := hentry
      have he : (offload_model sR sR.current_model).current_model = some c := by
        rw [hcur2, hcurS]
      have hinner : get_model ld (fuel + 1)
          { offload_model sR sR.current_model with
            loader_calls := (offload_model sR sR.current_model).loader_calls + 1 }
          ((offload_model sR sR.current_model).current_model) =
          some (retrieve_resident
            { offload_model sR sR.current_model with
              loader_calls := (offload_model sR sR.current_model).loader_calls + 1 }
            c entry) := by
        rw [he, get_model_succ]
        exact get_model_step_resident ld (get_model ld fuel) hvalid3
          (after_step1_cur_eq hcur3) hl3
      rw [hinner, retrieve_resident_touched]
      exact ⟨_, rfl, rfl⟩

theorem C6_loader_failure_recovery_witness :
    ReachG s1max2 ∧ 2 ≤ s1max2.max_loaded_models ∧
    valid_model s1max2 "B" = true ∧ s1max2.current_model ≠ some "B" ∧
    containsKey s1max2.models "B" = false ∧ ld_fail "B" = Option.none ∧
    ∃ s', get_model ld_fail 2 s1max2 (some "B") = some (.ok PyValue.pynone s') ∧
      s'.current_model = s1max2.current_model :=
  ⟨s1max2_reach, by decide, by decide, by decide, by decide, rfl,
    C6_loader_failure_recovery ld_fail 0 s1max2_reach (by decide) (by decide)
      (by decide) (by decide) rfl⟩

/-- The self-similar state inside the failing recovery recursion at
capacity 1: empty pool, empty stack, `current_model = A`, `k` loader
attempts so far. -/
def purged_state (k : Nat) : MCState :=
  { config := cfgAB, device := "cuda", precision := "float32", max_loaded_models := 1,
    models := [], stack := [], current_model := some "A", loader_calls := k }

theorem get_model_purged_diverges :
    ∀ (fuel k : Nat), get_model ld_fail fuel (purged_state k) (some "A") = Option.none := by
  intro fuel
  induction fuel with
  | zero => intro k; rfl
  | succ fuel ih =>
    intro k
    rw [get_model_succ]
    have hvalid : valid_model (purged_state k) "A" = true := rfl
    have ha : after_step1 (purged_state k) "A" = .ok () (purged_state k) :=
      after_step1_cur_eq rfl
    have hl : lookupKey (purged_state k).models "A" = Option.none := rfl
    rw [get_model_step_fail ld_fail (get_model ld_fail fuel) hvalid ha hl rfl]
    rw [show ({ purged_state k with
        loader_calls := (purged_state k).loader_calls + 1 } : MCState) =
      purged_state (k + 1) from rfl]
    rw [show (purged_state k).current_model = some "A" from rfl]
    rw [ih (k + 1)]

/-- Claim C6 counterexample: with `max_loaded_models = 1` and a loader
that fails on every name, `get_model B` from the reachable state whose
pool holds only the active model `A` never returns, for any recursion
budget: `_make_cache_room` first purges `A` (the active model), the load
of `B` fails, and the recovery call `get_model(A)` must itself reload
`A`, fails, and recurses the same way without bound (in Python:
unbounded recursion until the interpreter kills the call with
`RecursionError`).  The claim promises the call returns a none/failure
value with `current_model` still naming the previous active model; the
call does not return at all. -/
theorem C6_counterexample :
    ReachG s1max1 ∧ s1max1.current_model = some "A" ∧
    valid_model s1max1 "B" = true ∧ containsKey s1max1.models "B" = false ∧
    ld_fail "B" = Option.none ∧
    ∀ fuel : Nat, get_model ld_fail fuel s1max1 (some "B") = Option.none := by
  refine ⟨s1max1_reach, by decide, by decide, by decide, rfl, ?_⟩
  intro fuel
  cases fuel with
  | zero => rfl
  | succ fuel =>
    rw [get_model_succ]
    have hvalid : valid_model s1max1 "B" = true := by decide
    have ha : after_step1 s1max1 "B" = .ok () (purged_state 1) := by decide
    have hl : lookupKey (purged_state 1).models "B" = Option.none := rfl
    rw [get_model_step_fail ld_fail (get_model ld_fail fuel) hvalid ha hl rfl]
    rw [show ({ purged_state 1 with
        loader_calls := (purged_state 1).loader_calls + 1 } : MCState) =
      purged_state 2 from rfl]
    rw [show (purged_state 1).current_model = some "A" from rfl]
    rw [get_model_purged_diverges fuel 2]

/-! ### Claim C4: the FIFO matches the pool -/

theorem touch_state_sp (s2 : MCState) (name : Name) (lc : Nat)
    (newModels : List (Name × ModelRecord))
    (hkeys : ∀ m, m ∈ keys newModels ↔ m ∈ keys s2.models ∨ m = name)
    (hnodup : (keys newModels).Nodup)
    (hsp : StackMatchesPool s2) :
    StackMatchesPool (touched_state s2 name lc newModels) := by
  obtain ⟨hnd, hndk, hmem⟩ := hsp
  refine ⟨push_newest_nodup hnd name, hnodup, ?_⟩
  intro m
  show m ∈ push_newest_model s2.stack name ↔ m ∈ keys newModels
  rw [mem_push_newest hnd, hkeys m, hmem m]

/-- A version of `after_step1_ok` that does not assume the pool is
within its capacity bound. -/
theorem after_step1_ok_sp {s s2 : MCState} {name : Name} (hsp : StackMatchesPool s)
    (h : after_step1 s name = .ok () s2) :
    StackMatchesPool s2 ∧ s2.config = s.config ∧ s2.current_model = s.current_model ∧
    (∀ k, k ∈ keys s2.models → k ∈ keys s.models) ∧
    (containsKey s.models name = true → keys s2.models = keys s.models) := by
  have hoff : ∀ t : MCState, StackMatchesPool t →
      StackMatchesPool (offload_model t t.current_model) := by
    intro t ⟨h1, h2, h3⟩
    refine ⟨offload_stack t _ ▸ h1, offload_keys t _ ▸ h2, ?_⟩
    intro m
    rw [offload_stack, offload_keys]
    exact h3 m
  rcases after_step1_cases h with ⟨hc, rfl⟩ | ⟨hne, hm, rfl⟩ | ⟨hne, hm, sR, hroom, rfl⟩
  · exact ⟨hsp, rfl, rfl, fun k hk => hk, fun _ => rfl⟩
  · refine ⟨hoff s hsp, offload_config s _, offload_current s _, ?_, ?_⟩
    · intro k hk; rw [offload_keys] at hk; exact hk
    · intro _; exact offload_keys s _
  · obtain ⟨hspR, hcfg, hcur, _, _, _, _, hkeys, _⟩ := room_ok_inv hsp hroom
    refine ⟨hoff sR hspR, ?_, ?_, ?_, ?_⟩
    · rw [offload_config]; exact hcfg
    · rw [offload_current]; exact hcur
    · intro k hk; rw [offload_keys] at hk; exact hkeys k hk
    · intro hm'; exact absurd hm' (by simp [hm])

theorem get_model_Inv4 (ld : Name → Option ModelRecord) :
    ∀ (fuel : Nat) (s : MCState) (nameOpt : Option Name) (out : OpOut PyValue),
    StackMatchesPool s → get_model ld fuel s nameOpt = some out →
    StackMatchesPool out.state := by
  intro fuel
  induction fuel with
  | zero =>
    intro s nameOpt out _ h
    rw [get_model_zero] at h
    exact Option.noConfusion h
  | succ fuel ih =>
    intro s nameOpt out hsp hrun
    rw [get_model_succ] at hrun
    cases nameOpt with
    | none =>
      rw [get_model_step_none] at hrun
      cases hrun
      exact hsp
    | some name =>
      by_cases hv : valid_model s name = true
      case neg =>
        rw [get_model_step_invalid ld (get_model ld fuel) hv] at hrun
        cases hrun
        exact hsp
      case pos =>
        cases ha : after_step1 s name with
        | exn s1 =>
          rw [get_model_step_exn ld (get_model ld fuel) hv ha] at hrun
          cases hrun
          obtain ⟨hne, hmf, hroom⟩ := after_step1_exn ha
          obtain ⟨hge, hsh⟩ := make_cache_room_exn hroom
          rcases hsh with ⟨hnil, rfl⟩ | ⟨h0, rest, hs, h0nm, rfl⟩
          · exact hsp
          · exact absurd ((hsp.2.2 h0).mp (hs ▸ List.mem_cons_self h0 rest)) h0nm
        | ok u s2 =>
          cases u
          obtain ⟨hsp2, hcfg2, hcur2, hsub2, hkeq2⟩ := after_step1_ok_sp hsp ha
          cases hl : lookupKey s2.models name with
          | some entry =>
            rw [get_model_step_resident ld (get_model ld fuel) hv ha hl,
              retrieve_resident_touched] at hrun
            cases hrun
            have hmem2 : name ∈ keys s2.models := mem_keys_of_lookupKey hl
            have hkeq : keys (setKey s2.models name
                { entry with model := model_from_cpu s2.device entry.model }) =
                keys s2.models := keys_setKey_of_mem _ name _ hmem2
            refine touch_state_sp s2 name s2.loader_calls _ ?_ ?_ hsp2
            · intro m
              rw [hkeq]
              constructor
              · exact Or.inl
              · rintro (hm | rfl)
                · exact hm
                · exact hmem2
            · rw [hkeq]; exact hsp2.2.1
          | none =>
            have hnm2 : name ∉ keys s2.models := (lookupKey_eq_none_iff _ _).mp hl
            cases hld : ld name with
            | some loaded =>
              rw [get_model_step_load ld (get_model ld fuel) hv ha hl hld,
                install_loaded_touched] at hrun
              cases hrun
              refine touch_state_sp s2 name (s2.loader_calls + 1) _ ?_ ?_ hsp2
              · intro m
                rw [keys_setKey_of_not_mem _ name _ hnm2, List.mem_append, List.mem_singleton]
              · rw [keys_setKey_of_not_mem _ name _ hnm2]
                exact nodup_append_singleton hsp2.2.1 hnm2
            | none =>
              rw [get_model_step_fail ld (get_model ld fuel) hv ha hl hld] at hrun
              cases hr : get_model ld fuel { s2 with loader_calls := s2.loader_calls + 1 }
                  s2.current_model with
              | none => rw [hr] at hrun; exact Option.noConfusion hrun
              | some out4 =>
                rw [hr] at hrun
                have hsp3 : StackMatchesPool { s2 with loader_calls := s2.loader_calls + 1 } := by
                  refine ⟨hsp2.1, hsp2.2.1, ?_⟩
                  intro m
                  exact hsp2.2.2 m
                have hout4 := ih { s2 with loader_calls := s2.loader_calls + 1 }
                  s2.current_model out4 hsp3 hr
                cases out4 with
                | ok v4 s4 =>
                  cases hrun
                  exact hout4
                | exn s4 =>
                  cases hrun
                  exact hout4

theorem offload_sp {s : MCState} (n : Option Name) (hsp : StackMatchesPool s) :
    StackMatchesPool (offload_model s n) := by
  obtain ⟨h1, h2, h3⟩ := hsp
  refine ⟨offload_stack s n ▸ h1, offload_keys s n ▸ h2, ?_⟩
  intro m
  rw [offload_stack, offload_keys]
  exact h3 m

theorem del_model_state_not_mem {s : MCState} {n : Name} (hns : n ∉ s.stack) :
    (del_model s n).state = s ∨
    (del_model s n).state = { s with config := delKey s.config n } := by
  by_cases hc : containsKey s.config n = true
  · right; simp [del_model, hc, hns, OpOut.state]
  · left; simp [del_model, hc, OpOut.state]

theorem del_model_sp {s : MCState} {n : Name} (hn : containsKey s.models n = false)
    (hsp : StackMatchesPool s) : StackMatchesPool (del_model s n).state := by
  have hns : n ∉ s.stack := by
    intro hmem
    have h4 := (hsp.2.2 n).mp hmem
    rw [← containsKey_iff, hn] at h4
    exact Bool.noConfusion h4
  rcases del_model_state_not_mem hns with he | he <;> rw [he]
  · exact hsp
  · exact ⟨hsp.1, hsp.2.1, fun m => hsp.2.2 m⟩

theorem invalidate_eq_mem {s : MCState} {n : Name}
    (hm : n ∈ (offload_model s (some n)).stack) :
    invalidate_cached_model s n =
      { offload_model s (some n) with
          stack := (offload_model s (some n)).stack.erase n,
          models := delKey (offload_model s (some n)).models n } := by
  simp [invalidate_cached_model, hm]

theorem invalidate_eq_not_mem {s : MCState} {n : Name}
    (hm : n ∉ (offload_model s (some n)).stack) :
    invalidate_cached_model s n =
      { offload_model s (some n) with
          models := delKey (offload_model s (some n)).models n } := by
  simp [invalidate_cached_model, hm]

theorem invalidate_sp {s : MCState} (n : Name) (hsp : StackMatchesPool s) :
    StackMatchesPool (invalidate_cached_model s n) := by
  obtain ⟨h1, h2, h3⟩ := offload_sp (some n) hsp
  by_cases hm : n ∈ (offload_model s (some n)).stack
  · rw [invalidate_eq_mem hm]
    refine ⟨h1.erase n, nodup_keys_delKey h2 n, ?_⟩
    intro m
    show m ∈ (offload_model s (some n)).stack.erase n ↔
      m ∈ keys (delKey (offload_model s (some n)).models n)
    rw [h1.mem_erase_iff, mem_keys_delKey, h3 m]
    constructor
    · rintro ⟨hne, hmem⟩; exact ⟨hmem, hne⟩
    · rintro ⟨hmem, hne⟩; exact ⟨hne, hmem⟩
  · rw [invalidate_eq_not_mem hm]
    have hnk : n ∉ keys (offload_model s (some n)).models := fun hk => hm ((h3 n).mpr hk)
    refine ⟨h1, ?_, ?_⟩
    · show (keys (delKey (offload_model s (some n)).models n)).Nodup
      rw [delKey_of_not_mem hnk]
      exact h2
    · intro m
      show m ∈ (offload_model s (some n)).stack ↔
        m ∈ keys (delKey (offload_model s (some n)).models n)
      rw [delKey_of_not_mem hnk]
      exact h3 m

theorem add_model_sp {s : MCState} (n : Name) (attrs : Attrs) (clobber : Bool)
    (hsp : StackMatchesPool s) : StackMatchesPool (add_model s n attrs clobber).state := by
  rw [add_model]
  by_cases hf : required_fields.all (fun f => containsKey attrs f) = true
  case neg =>
    rw [if_neg hf]
    exact hsp
  case pos =>
    rw [if_pos hf]
    by_cases hcl : (clobber || !(containsKey s.config n)) = true
    case neg =>
      rw [if_neg hcl]
      exact hsp
    case pos =>
      rw [if_pos hcl]
      cases clobber with
      | false => exact ⟨hsp.1, hsp.2.1, fun m => hsp.2.2 m⟩
      | true =>
        show StackMatchesPool (invalidate_cached_model _ n)
        exact invalidate_sp n ⟨hsp.1, hsp.2.1, fun m => hsp.2.2 m⟩

theorem set_default_model_sp {s : MCState} (n : Name) (hsp : StackMatchesPool s) :
    StackMatchesPool (set_default_model s n).state := by
  rw [set_default_model]
  by_cases h1 : containsKey s.models n = true
  · rw [if_pos h1]
    by_cases h2 : containsKey (clear_defaults s.config) n = true
    · rw [if_pos h2]
      exact ⟨hsp.1, hsp.2.1, fun m => hsp.2.2 m⟩
    · rw [if_neg h2]
      exact ⟨hsp.1, hsp.2.1, fun m => hsp.2.2 m⟩
  · rw [if_neg h1]
    exact hsp

/-- States reachable by all public cache operations, where `del_model`
is only ever called on names that are not pool-resident (deleting a
loaded model is the documented inconsistency this restriction rules
out). -/
inductive ReachOps4 : MCState → Prop
  | init (cfg : List (Name × Attrs)) (device precision : String) (m : Nat) :
      ReachOps4 (init_state cfg device precision m)
  | get {s : MCState} {out : OpOut PyValue} (ld : Name → Option ModelRecord)
      (fuel : Nat) (n : Name) :
      ReachOps4 s → get_model ld fuel s (some n) = some out → ReachOps4 out.state
  | offload {s : MCState} (n : Name) : ReachOps4 s → ReachOps4 (offload_model s (some n))
  | del {s : MCState} (n : Name) : ReachOps4 s → containsKey s.models n = false →
      ReachOps4 (del_model s n).state
  | add {s : MCState} (n : Name) (attrs : Attrs) (clobber : Bool) :
      ReachOps4 s → ReachOps4 (add_model s n attrs clobber).state
  | setdef {s : MCState} (n : Name) : ReachOps4 s → ReachOps4 (set_default_model s n).state

theorem reachOps4_inv {s : MCState} (h : ReachOps4 s) : StackMatchesPool s := by
  induction h with
  | init cfg device precision m =>
    refine ⟨List.nodup_nil, List.nodup_nil, ?_⟩
    intro n
    show n ∈ ([] : List Name) ↔ n ∈ keys ([] : List (Name × ModelRecord))
    simp [keys]
  | get ld fuel n hs heq ih => exact get_model_Inv4 ld fuel _ _ _ ih heq
  | offload n hs ih => exact offload_sp (some n) ih
  | del n hs hn ih => exact del_model_sp hn ih
  | add n attrs clobber hs ih => exact add_model_sp n attrs clobber ih
  | setdef n hs ih => exact set_default_model_sp n ih

/-- Claim C4 (amended: `del_model` must not target a pool-resident name;
the counterexample shows a loaded `del_model` breaks the invariant):
after every cache operation, the residency FIFO contains exactly the
names present in the loaded-model pool, each exactly once. -/
theorem C4_stack_matches_pool {s : MCState} (h : ReachOps4 s) :
    s.stack.Nodup ∧ ∀ n : Name, n ∈ s.stack ↔ containsKey s.models n = true := by
  obtain ⟨h1, _, h3⟩ := reachOps4_inv h
  refine ⟨h1, ?_⟩
  intro n
  rw [containsKey_iff]
  exact h3 n

/-- The state after `get_model A` followed by an explicit
`offload_model A`. -/
def s1A_off : MCState := { s1A with models := [("A", recA_cpu)] }

theorem s1A_off_reach4 : ReachOps4 s1A_off := by
  have h := ReachOps4.offload "A"
    (ReachOps4.get ld_any 1 "A" (ReachOps4.init cfgA "cuda" "float32" 2) s1A_step)
  have e : offload_model s1A (some "A") = s1A_off := by decide
  exact e ▸ h

theorem C4_stack_matches_pool_witness :
    ReachOps4 s1A_off ∧ s1A_off.stack.Nodup ∧
    ("A" ∈ s1A_off.stack ↔ containsKey s1A_off.models "A" = true) :=
  ⟨s1A_off_reach4, (C4_stack_matches_pool s1A_off_reach4).1,
    (C4_stack_matches_pool s1A_off_reach4).2 "A"⟩

/-- Claim C4 counterexample: `del_model` on a loaded model removes the
name from the residency FIFO but leaves its pool entry: after
`get_model A; del_model A` the pool still contains `A` while the FIFO is
empty, so the FIFO no longer lists the pool names. -/
theorem C4_counterexample :
    ReachAll s_delA ∧ containsKey s_delA.models "A" = true ∧ s_delA.stack = [] ∧
    ¬ ("A" ∈ s_delA.stack ↔ containsKey s_delA.models "A" = true) :=
  ⟨s_delA_reachAll, by decide, rfl, by decide⟩

/-! ### Claim C3: the active model is always pool-resident -/

/-- Every stack entry is a registry key (pushed names were validated,
and `del_model` removes a name from registry and stack together). -/
def StackRegistered (s : MCState) : Prop := ∀ m, m ∈ s.stack → m ∈ keys s.config

/-- The active model, when set, has a pool entry. -/
def ActiveInPool (s : MCState) : Prop :=
  ∀ c, s.current_model = some c → c ∈ keys s.models

/-- The active model, when set, is a registry key or has a pool entry —
the transient condition that lets the failure recovery terminate in a
good state. -/
def ActiveResolvable (s : MCState) : Prop :=
  ∀ c, s.current_model = some c → c ∈ keys s.config ∨ c ∈ keys s.models

theorem mem_of_head?_eq {α : Type} {l : List α} {a : α} (h : l.head? = some a) : a ∈ l := by
  cases l with
  | nil => exact Option.noConfusion h
  | cons x t =>
    have hx : x = a := by simpa using h
    exact hx ▸ List.mem_cons_self x t

theorem after_step1_ok_basic {s s2 : MCState} {name : Name}
    (h : after_step1 s name = .ok () s2) :
    s2.config = s.config ∧ s2.current_model = s.current_model ∧
    (s2.stack = s.stack ∨ ∃ h0 rest, s.stack = h0 :: rest ∧ s2.stack = rest) ∧
    (∀ k, k ∈ keys s2.models → k ∈ keys s.models) ∧
    (∀ c, c ∈ keys s.models → c ∈ keys s2.models ∨ s.stack.head? = some c) := by
  rcases after_step1_cases h with ⟨hc, rfl⟩ | ⟨hne, hm, rfl⟩ | ⟨hne, hm, sR, hroom, rfl⟩
  · exact ⟨rfl, rfl, Or.inl rfl, fun k hk => hk, fun c hc => Or.inl hc⟩
  · refine ⟨offload_config _ _, offload_current _ _, Or.inl (offload_stack _ _), ?_, ?_⟩
    · intro k hk; rw [offload_keys] at hk; exact hk
    · intro c hc; left; rw [offload_keys]; exact hc
  · rcases make_cache_room_ok hroom with ⟨hlt, rfl⟩ | ⟨hge, h0, rest, hs, h0m, rfl⟩
    · refine ⟨offload_config _ _, offload_current _ _, Or.inl (offload_stack _ _), ?_, ?_⟩
      · intro k hk; rw [offload_keys] at hk; exact hk
      · intro c hc; left; rw [offload_keys]; exact hc
    · refine ⟨?_, ?_, ?_, ?_, ?_⟩
      · rw [offload_config]
      · rw [offload_current]
      · right
        refine ⟨h0, rest, hs, ?_⟩
        rw [offload_stack]
      · intro k hk
        rw [offload_keys] at hk
        exact ((mem_keys_delKey s.models h0 k).mp hk).1
      · intro c hc
        by_cases hch : c = h0
        · right; rw [hs, hch]; rfl
        · left
          rw [offload_keys]
          show c ∈ keys (delKey s.models h0)
          rw [mem_keys_delKey]
          exact ⟨hc, hch⟩

theorem keys_clear_defaults (cfg : List (Name × Attrs)) :
    keys (clear_defaults cfg) = keys cfg := by
  induction cfg with
  | nil => rfl
  | cons p rest ih => simp [clear_defaults, keys, ih] at *

theorem keys_map_set_default (cfg : List (Name × Attrs)) (name : Name) :
    keys (cfg.map (fun p =>
      if p.1 = name then (p.1, setKey p.2 "default" (.bool true)) else p)) = keys cfg := by
  induction cfg with
  | nil => rfl
  | cons p rest ih =>
    simp only [List.map_cons, keys_cons]
    rw [ih]
    by_cases h : p.1 = name
    · rw [if_pos h]
    · rw [if_neg h]

theorem get_model_Inv3 (ld : Name → Option ModelRecord) :
    ∀ (fuel : Nat) (s : MCState) (nameOpt : Option Name) (out : OpOut PyValue),
    s.stack.Nodup → StackRegistered s →
    (ActiveInPool s ∨ (nameOpt = s.current_model ∧ ActiveResolvable s)) →
    get_model ld fuel s nameOpt = some out →
    out.state.stack.Nodup ∧ StackRegistered out.state ∧ ActiveInPool out.state := by
  intro fuel
  induction fuel with
  | zero =>
    intro s nameOpt out _ _ _ h
    rw [get_model_zero] at h
    exact Option.noConfusion h
  | succ fuel ih =>
    intro s nameOpt out hnd hsr hdisj hrun
    rw [get_model_succ] at hrun
    cases nameOpt with
    | none =>
      rw [get_model_step_none] at hrun
      cases hrun
      refine ⟨hnd, hsr, ?_⟩
      rcases hdisj with hp | ⟨heq, _⟩
      · exact hp
      · intro c hc
        have hc' : s.current_model = some c := hc
        rw [hc'] at heq
        exact Option.noConfusion heq
    | some name =>
      by_cases hv : valid_model s name = true
      case neg =>
        rw [get_model_step_invalid ld (get_model ld fuel) hv] at hrun
        cases hrun
        refine ⟨hnd, hsr, ?_⟩
        rcases hdisj with hp | ⟨heq, hres⟩
        · exact hp
        · intro c hc
          have hc' : s.current_model = some c := hc
          have hnc : name = c := by
            rw [hc'] at heq
            exact Option.some.inj heq
          rcases hres c hc with hcf | hcm
          · exfalso
            apply hv
            rw [valid_model, containsKey_iff]
            exact hnc ▸ hcf
          · exact hcm
      case pos =>
        have hvn : name ∈ keys s.config := by
          rw [valid_model, containsKey_iff] at hv
          exact hv
        cases ha : after_step1 s name with
        | exn s1 =>
          rw [get_model_step_exn ld (get_model ld fuel) hv ha] at hrun
          cases hrun
          obtain ⟨hne, hmf, hroom⟩ := after_step1_exn ha
          have hp : ActiveInPool s := by
            rcases hdisj with hp | ⟨heq, _⟩
            · exact hp
            · exact absurd heq.symm hne
          obtain ⟨hge, hsh⟩ := make_cache_room_exn hroom
          rcases hsh with ⟨hnil, rfl⟩ | ⟨h0, rest, hs, h0nm, rfl⟩
          · exact ⟨hnd, hsr, hp⟩
          · refine ⟨?_, ?_, ?_⟩
            · show rest.Nodup
              exact (hs ▸ hnd : (h0 :: rest).Nodup).of_cons
            · intro m hm
              show m ∈ keys s.config
              exact hsr m (hs ▸ List.mem_cons_of_mem h0 hm)
            · intro c hc
              exact hp c hc
        | ok u s2 =>
          cases u
          obtain ⟨hcfg2, hcur2, hstk2, hsub2, hsurvive2⟩ := after_step1_ok_basic ha
          have hnd2 : s2.stack.Nodup := by
            rcases hstk2 with he | ⟨h0, rest, hs, he⟩
            · rw [he]; exact hnd
            · rw [he]; exact (hs ▸ hnd : (h0 :: rest).Nodup).of_cons
          have hsr2 : StackRegistered s2 := by
            intro m hm
            rw [hcfg2]
            apply hsr
            rcases hstk2 with he | ⟨h0, rest, hs, he⟩
            · rw [← he]; exact hm
            · rw [he] at hm
              rw [hs]
              exact List.mem_cons_of_mem h0 hm
          cases hl : lookupKey s2.models name with
          | some entry =>
            rw [get_model_step_resident ld (get_model ld fuel) hv ha hl,
              retrieve_resident_touched] at hrun
            cases hrun
            refine ⟨?_, ?_, ?_⟩
            · show (push_newest_model s2.stack name).Nodup
              exact push_newest_nodup hnd2 name
            · intro m hm
              have hm' : m ∈ s2.stack ∨ m = name := mem_of_mem_push_newest hm
              show m ∈ keys s2.config
              rcases hm' with hm' | rfl
              · exact hsr2 m hm'
              · rw [hcfg2]; exact hvn
            · intro c hc
              simp only [touched_state] at hc
              cases hc
              show name ∈ keys (setKey s2.models name
                { entry with model := model_from_cpu s2.device entry.model })
              exact mem_keys_of_lookupKey (lookupKey_setKey_self _ name _)
          | none =>
            cases hld : ld name with
            | some loaded =>
              rw [get_model_step_load ld (get_model ld fuel) hv ha hl hld,
                install_loaded_touched] at hrun
              cases hrun
              refine ⟨?_, ?_, ?_⟩
              · show (push_newest_model s2.stack name).Nodup
                exact push_newest_nodup hnd2 name
              · intro m hm
                have hm' : m ∈ s2.stack ∨ m = name := mem_of_mem_push_newest hm
                show m ∈ keys s2.config
                rcases hm' with hm' | rfl
                · exact hsr2 m hm'
                · rw [hcfg2]; exact hvn
              · intro c hc
                simp only [touched_state] at hc
                cases hc
                show name ∈ keys (setKey s2.models name loaded)
                exact mem_keys_of_lookupKey (lookupKey_setKey_self _ name _)
            | none =>
              rw [get_model_step_fail ld (get_model ld fuel) hv ha hl hld] at hrun
              cases hr : get_model ld fuel { s2 with loader_calls := s2.loader_calls + 1 }
                  s2.current_model with
              | none => rw [hr] at hrun; exact Option.noConfusion hrun
              | some out4 =>
                rw [hr] at hrun
                have hnd3 : ({ s2 with loader_calls := s2.loader_calls + 1 } :
                    MCState).stack.Nodup := hnd2
                have hsr3 : StackRegistered { s2 with loader_calls := s2.loader_calls + 1 } := by
                  intro m hm
                  exact hsr2 m hm
                have hdisj3 : ActiveInPool { s2 with loader_calls := s2.loader_calls + 1 } ∨
                    (s2.current_model = ({ s2 with loader_calls := s2.loader_calls + 1 } :
                        MCState).current_model ∧
                      ActiveResolvable { s2 with loader_calls := s2.loader_calls + 1 }) := by
                  right
                  refine ⟨rfl, ?_⟩
                  intro c hc
                  have hc2 : s2.current_model = some c := hc
                  have hcs : s.current_model = some c := hcur2 ▸ hc2
                  rcases hdisj with hp | ⟨heq, hres⟩
                  · have hcm : c ∈ keys s.models := hp c hcs
                    rcases hsurvive2 c hcm with hm2 | hhd
                    · right
                      exact hm2
                    · left
                      show c ∈ keys s2.config
                      rw [hcfg2]
                      exact hsr c (mem_of_head?_eq hhd)
                  · have hnc : name = c := by
                      rw [hcs] at heq
                      exact Option.some.inj heq
                    left
                    show c ∈ keys s2.config
                    rw [hcfg2]
                    exact hnc ▸ hvn
                have hout4 := ih { s2 with loader_calls := s2.loader_calls + 1 }
                  s2.current_model out4 hnd3 hsr3 hdisj3 hr
                cases out4 with
                | ok v4 s4 =>
                  cases hrun
                  exact hout4
                | exn s4 =>
                  cases hrun
                  exact hout4

/-- The invariant bundle for claim C3. -/
def Inv3 (s : MCState) : Prop := s.stack.Nodup ∧ StackRegistered s ∧ ActiveInPool s

theorem offload_inv3 {s : MCState} (n : Option Name) (h : Inv3 s) :
    Inv3 (offload_model s n) := by
  obtain ⟨h1, h2, h3⟩ := h
  refine ⟨?_, ?_, ?_⟩
  · rw [offload_stack]; exact h1
  · intro m hm
    rw [offload_stack] at hm
    rw [offload_config]
    exact h2 m hm
  · intro c hc
    rw [offload_current] at hc
    rw [offload_keys]
    exact h3 c hc

theorem del_model_eq_cases (s : MCState) (n : Name) :
    del_model s n = .exn s ∨
    (containsKey s.config n = true ∧ n ∈ s.stack ∧
      del_model s n = .ok true
        { s with config := delKey s.config n, stack := s.stack.erase n }) ∨
    (containsKey s.config n = true ∧ n ∉ s.stack ∧
      del_model s n = .ok true { s with config := delKey s.config n }) := by
  by_cases hc : containsKey s.config n = true
  · by_cases hm : n ∈ s.stack
    · exact Or.inr (Or.inl ⟨hc, hm, by simp [del_model, hc, hm]⟩)
    · exact Or.inr (Or.inr ⟨hc, hm, by simp [del_model, hc, hm]⟩)
  · exact Or.inl (by simp [del_model, hc])

theorem del_model_inv3 {s : MCState} (n : Name) (h : Inv3 s) :
    Inv3 (del_model s n).state := by
  obtain ⟨h1, h2, h3⟩ := h
  rcases del_model_eq_cases s n with he | ⟨hc, hm, he⟩ | ⟨hc, hm, he⟩ <;> rw [he]
  · exact ⟨h1, h2, h3⟩
  · refine ⟨?_, ?_, ?_⟩
    · show (s.stack.erase n).Nodup
      exact h1.erase n
    · intro m hmm
      have hmm' : m ∈ s.stack.erase n := hmm
      have h4 := h1.mem_erase_iff.mp hmm'
      show m ∈ keys (delKey s.config n)
      rw [mem_keys_delKey]
      exact ⟨h2 m h4.2, h4.1⟩
    · intro c hc'
      exact h3 c hc'
  · refine ⟨h1, ?_, fun c hc' => h3 c hc'⟩
    intro m hmm
    have hmm' : m ∈ s.stack := hmm
    show m ∈ keys (delKey s.config n)
    rw [mem_keys_delKey]
    refine ⟨h2 m hmm', ?_⟩
    intro he'
    exact hm (he' ▸ hmm')

theorem invalidate_inv3 {s : MCState} {n : Name} (hcur : s.current_model ≠ some n)
    (h : Inv3 s) : Inv3 (invalidate_cached_model s n) := by
  obtain ⟨h1, h2, h3⟩ := offload_inv3 (some n) h
  by_cases hm : n ∈ (offload_model s (some n)).stack
  · rw [invalidate_eq_mem hm]
    refine ⟨?_, ?_, ?_⟩
    · show ((offload_model s (some n)).stack.erase n).Nodup
      exact h1.erase n
    · intro m hmm
      have hmm' : m ∈ (offload_model s (some n)).stack.erase n := hmm
      show m ∈ keys (offload_model s (some n)).config
      exact h2 m (List.mem_of_mem_erase hmm')
    · intro c hc
      have hc' : (offload_model s (some n)).current_model = some c := hc
      show c ∈ keys (delKey (offload_model s (some n)).models n)
      rw [mem_keys_delKey]
      refine ⟨h3 c hc', ?_⟩
      intro he
      apply hcur
      rw [offload_current] at hc'
      exact he ▸ hc'
  · rw [invalidate_eq_not_mem hm]
    refine ⟨h1, fun m hmm => h2 m hmm, ?_⟩
    intro c hc
    have hc' : (offload_model s (some n)).current_model = some c := hc
    show c ∈ keys (delKey (offload_model s (some n)).models n)
    rw [mem_keys_delKey]
    refine ⟨h3 c hc', ?_⟩
    intro he
    apply hcur
    rw [offload_current] at hc'
    exact he ▸ hc'

theorem add_model_inv3 {s : MCState} (n : Name) (attrs : Attrs) (clobber : Bool)
    (hres : clobber = true → s.current_model ≠ some n)
    (h : Inv3 s) : Inv3 (add_model s n attrs clobber).state := by
  rw [add_model]
  by_cases hf : required_fields.all (fun f => containsKey attrs f) = true
  case neg => rw [if_neg hf]; exact h
  case pos =>
    rw [if_pos hf]
    by_cases hcl : (clobber || !(containsKey s.config n)) = true
    case neg => rw [if_neg hcl]; exact h
    case pos =>
      rw [if_pos hcl]
      obtain ⟨h1, h2, h3⟩ := h
      cases clobber with
      | false =>
        refine ⟨h1, ?_, fun c hc => h3 c hc⟩
        intro m hm
        exact mem_keys_setKey_of_mem s.config n m _ (h2 m hm)
      | true =>
        refine invalidate_inv3 ?_ ?_
        · exact hres rfl
        · exact ⟨h1, fun m hm => mem_keys_setKey_of_mem s.config n m _ (h2 m hm),
            fun c hc => h3 c hc⟩

theorem set_default_model_inv3 {s : MCState} (n : Name) (h : Inv3 s) :
    Inv3 (set_default_model s n).state := by
  obtain ⟨h1, h2, h3⟩ := h
  rw [set_default_model]
  by_cases hm : containsKey s.models n = true
  · rw [if_pos hm]
    by_cases hcf : containsKey (clear_defaults s.config) n = true
    · rw [if_pos hcf]
      refine ⟨h1, ?_, fun c hc => h3 c hc⟩
      intro m hmm
      show m ∈ keys ((clear_defaults s.config).map
        (fun p => if p.1 = n then (p.1, setKey p.2 "default" (AttrVal.bool true)) else p))
      rw [keys_map_set_default, keys_clear_defaults]
      exact h2 m hmm
    · rw [if_neg hcf]
      refine ⟨h1, ?_, fun c hc => h3 c hc⟩
      intro m hmm
      show m ∈ keys (clear_defaults s.config)
      rw [keys_clear_defaults]
      exact h2 m hmm
  · rw [if_neg hm]
    exact ⟨h1, h2, h3⟩

/-- States reachable by all public cache operations, where `add_model`
with `clobber` never targets the currently active model (clobbering the
active model is the documented way to break claim C3). -/
inductive ReachOps3 : MCState → Prop
  | init (cfg : List (Name × Attrs)) (device precision : String) (m : Nat) :
      ReachOps3 (init_state cfg device precision m)
  | get {s : MCState} {out : OpOut PyValue} (ld : Name → Option ModelRecord)
      (fuel : Nat) (n : Name) :
      ReachOps3 s → get_model ld fuel s (some n) = some out → ReachOps3 out.state
  | offload {s : MCState} (n : Name) : ReachOps3 s → ReachOps3 (offload_model s (some n))
  | del {s : MCState} (n : Name) : ReachOps3 s → ReachOps3 (del_model s n).state
  | add {s : MCState} (n : Name) (attrs : Attrs) (clobber : Bool) :
      ReachOps3 s → (clobber = true → s.current_model ≠ some n) →
      ReachOps3 (add_model s n attrs clobber).state
  | setdef {s : MCState} (n : Name) : ReachOps3 s → ReachOps3 (set_default_model s n).state

theorem reachOps3_inv {s : MCState} (h : ReachOps3 s) : Inv3 s := by
  induction h with
  | init cfg device precision m =>
    refine ⟨List.nodup_nil, ?_, ?_⟩
    · intro m hm
      exact absurd hm (List.not_mem_nil m)
    · intro c hc
      exact Option.noConfusion hc
  | get ld fuel n hs heq ih =>
    exact get_model_Inv3 ld fuel _ _ _ ih.1 ih.2.1 (Or.inl ih.2.2) heq
  | offload n hs ih => exact offload_inv3 (some n) ih
  | del n hs ih => exact del_model_inv3 n ih
  | add n attrs clobber hs hres ih => exact add_model_inv3 n attrs clobber hres ih
  | setdef n hs ih => exact set_default_model_inv3 n ih

/-- Claim C3 (amended: `add_model` with `clobber=True` must not target
the active model; the counterexample shows that a clobbering update of
the active model leaves `current_model` naming a model absent from the
pool): after every cache operation, if `current_model` is a name then
that name has a pool entry. -/
theorem C3_active_in_pool {s : MCState} {c : Name} (h : ReachOps3 s)
    (hc : s.current_model = some c) : containsKey s.models c = true := by
  rw [containsKey_iff]
  exact (reachOps3_inv h).2.2 c hc

theorem C3_active_in_pool_witness :
    ReachOps3 s1A ∧ s1A.current_model = some "A" ∧
    containsKey s1A.models "A" = true := by
  have hreach : ReachOps3 s1A :=
    ReachOps3.get ld_any 1 "A" (ReachOps3.init cfgA "cuda" "float32" 2) s1A_step
  exact ⟨hreach, rfl, C3_active_in_pool hreach rfl⟩

/-- The state after `get_model A` followed by
`add_model A attrs (clobber := true)`: the clobber invalidates the
cached entry of the ACTIVE model, emptying pool and stack while
`current_model` still says `A`. -/
def s_clobA : MCState := { s1A with models := [], stack := [] }

theorem s_clobA_eq : add_model s1A "A" attrs_full true = .ok true s_clobA := by decide

theorem s_clobA_reachAll : ReachAll s_clobA := by
  have h := ReachAll.add "A" attrs_full true s1A_reachAll
  have e : (add_model s1A "A" attrs_full true).state = s_clobA := by decide
  exact e ▸ h

/-- Claim C3 counterexample: `add_model` with `clobber=True` on the
currently active model completes successfully but removes the active
model's pool entry (`_invalidate_cached_model`) without touching
`current_model`: afterwards ActiveModel names a model absent from the
pool. -/
theorem C3_counterexample :
    ReachAll s_clobA ∧ s_clobA.current_model = some "A" ∧
    containsKey s_clobA.models "A" = false :=
  ⟨s_clobA_reachAll, rfl, by decide⟩

/-! ### Claim C8: `set_default_model` -/

theorem lookup_clear_defaults (cfg : List (Name × Attrs)) (m : Name) :
    lookupKey (clear_defaults cfg) m =
      (lookupKey cfg m).map (fun attrs => delKey attrs "default") := by
  induction cfg with
  | nil => rfl
  | cons p rest ih =>
    by_cases h : p.1 = m
    · simp [clear_defaults, lookupKey, h]
    · simp [clear_defaults, lookupKey, h]
      exact ih

theorem lookup_set_default_map (cfg : List (Name × Attrs)) (name m : Name) :
    lookupKey (cfg.map (fun p =>
        if p.1 = name then (p.1, setKey p.2 "default" (AttrVal.bool true)) else p)) m =
      (lookupKey cfg m).map (fun attrs =>
        if m = name then setKey attrs "default" (AttrVal.bool true) else attrs) := by
  induction cfg with
  | nil => rfl
  | cons p rest ih =>
    by_cases h : p.1 = m
    · by_cases hn : p.1 = name
      · have hm : m = name := h ▸ hn
        simp [lookupKey, h, hn, hm]
      · have hm : ¬ (m = name) := fun he => hn (h ▸ he ▸ rfl)
        simp [lookupKey, h, hn, hm]
    · by_cases hn : p.1 = name
      · have hm : ¬ (name = m) := fun he => h (hn ▸ he ▸ rfl)
        simp [lookupKey, h, hn, hm, ih]
      · simp [lookupKey, h, hn, ih]

/-- Claim C8 (amended: success additionally requires the name to still
be a registry entry; a pool-resident name that was deleted from the
registry makes `set_default_model` raise after having already cleared
every default flag — see the counterexample): `set_default_model` fails
with an assertion error and an unchanged state whenever the name has no
pool entry, even if it is a registry entry; when the name has both a
pool entry and a registry entry it succeeds, removes the `default` flag
from every registry entry, sets it on the target, and touches no other
attribute of any descriptor. -/
theorem C8_set_default {s : MCState} {name : Name} :
    (containsKey s.models name = false → set_default_model s name = .exn s) ∧
    (containsKey s.models name = true → containsKey s.config name = true →
      ∃ s', set_default_model s name = .ok () s' ∧
        keys s'.config = keys s.config ∧
        (∀ m attrs, lookupKey s.config m = some attrs →
          lookupKey s'.config m = some (if m = name
            then setKey (delKey attrs "default") "default" (AttrVal.bool true)
            else delKey attrs "default")) ∧
        s'.models = s.models ∧ s'.stack = s.stack ∧
        s'.current_model = s.current_model) := by
  constructor
  · intro hm
    rw [set_default_model, if_neg (by simp [hm])]
  · intro hm hcf
    have hcf1 : containsKey (clear_defaults s.config) name = true := by
      rw [containsKey_iff, keys_clear_defaults]
      exact (containsKey_iff _ _).mp hcf
    rw [set_default_model, if_pos hm, if_pos hcf1]
    refine ⟨_, rfl, ?_, ?_, rfl, rfl, rfl⟩
    · show keys ((clear_defaults s.config).map
        (fun p => if p.1 = name then (p.1, setKey p.2 "default" (AttrVal.bool true)) else p)) =
        keys s.config
      rw [keys_map_set_default, keys_clear_defaults]
    · intro m attrs hma
      show lookupKey ((clear_defaults s.config).map
        (fun p => if p.1 = name then (p.1, setKey p.2 "default" (AttrVal.bool true)) else p)) m = _
      rw [lookup_set_default_map, lookup_clear_defaults, hma]
      by_cases hmn : m = name <;> simp [hmn]

theorem C8_set_default_witness :
    (containsKey s1A.models "B" = false ∧ set_default_model s1A "B" = .exn s1A) ∧
    (containsKey s1A.models "A" = true ∧ containsKey s1A.config "A" = true ∧
      ∃ s', set_default_model s1A "A" = .ok () s' ∧
        keys s'.config = keys s1A.config ∧
        (∀ m attrs, lookupKey s1A.config m = some attrs →
          lookupKey s'.config m = some (if m = "A"
            then setKey (delKey attrs "default") "default" (AttrVal.bool true)
            else delKey attrs "default")) ∧
        s'.models = s1A.models ∧ s'.stack = s1A.stack ∧
        s'.current_model = s1A.current_model) :=
  ⟨⟨by decide, C8_set_default.1 (by decide)⟩,
   ⟨by decide, by decide, C8_set_default.2 (by decide) (by decide)⟩⟩

/-- Claim C8 counterexample: after `get_model A; del_model A` the name
`A` is still in the loaded pool, yet `set_default_model A` does not
succeed: the assertion against the pool passes, every registry entry's
default flag is cleared, and then `config[model_name]` raises because
`A` is no longer a registry key. -/
theorem C8_counterexample :
    ReachAll s_delA ∧ containsKey s_delA.models "A" = true ∧
    OpOut.isOk (set_default_model s_delA "A") = false :=
  ⟨s_delA_reachAll, by decide, by decide⟩

/-! ### Claim C9: `_cached_sha256` -/

/-- Claim C9: `_cached_sha256` returns the sidecar's stored digest (and
changes nothing) exactly when the sidecar exists and the weights file's
modification time is at or before the sidecar's; otherwise it computes
the SHA-256 hex digest of the weights bytes, rewrites the sidecar with
it (the sidecar now exists with the fresh digest and a fresh
modification time), and returns it. -/
theorem C9_cached_hash (sha256hex : List Nat → String) (now : Nat) (fs : HashFS)
    (data : List Nat) :
    (fs.sidecar_exists = true → fs.weights_mtime ≤ fs.sidecar_mtime →
      cached_sha256 sha256hex now fs data = (fs.sidecar_content, fs)) ∧
    (fs.sidecar_exists = false ∨ fs.sidecar_mtime < fs.weights_mtime →
      cached_sha256 sha256hex now fs data =
        (sha256hex data,
          { fs with sidecar_exists := true, sidecar_content := sha256hex data,
                    sidecar_mtime := now })) := by
  constructor
  · intro h1 h2
    rw [cached_sha256, if_pos ⟨h1, h2⟩]
  · intro h
    rw [cached_sha256, if_neg]
    rintro ⟨h1, h2⟩
    rcases h with h | h
    · rw [h1] at h
      exact Bool.noConfusion h
    · omega

theorem C9_cached_hash_witness :
    ((⟨true, "cafe", 5, 4⟩ : HashFS).sidecar_exists = true ∧
      (⟨true, "cafe", 5, 4⟩ : HashFS).weights_mtime ≤
        (⟨true, "cafe", 5, 4⟩ : HashFS).sidecar_mtime ∧
      cached_sha256 (fun _ => "beef") 9 ⟨true, "cafe", 5, 4⟩ [1, 2] =
        ("cafe", ⟨true, "cafe", 5, 4⟩)) ∧
    ((⟨true, "cafe", 3, 4⟩ : HashFS).sidecar_mtime <
        (⟨true, "cafe", 3, 4⟩ : HashFS).weights_mtime ∧
      cached_sha256 (fun _ => "beef") 9 ⟨true, "cafe", 3, 4⟩ [1, 2] =
        ("beef", ⟨true, "beef", 9, 4⟩)) :=
  ⟨⟨rfl, by decide, (C9_cached_hash (fun _ => "beef") 9 ⟨true, "cafe", 5, 4⟩ [1, 2]).1
      rfl (by decide)⟩,
   ⟨by decide, (C9_cached_hash (fun _ => "beef") 9 ⟨true, "cafe", 3, 4⟩ [1, 2]).2
      (Or.inr (by decide))⟩⟩

/-! ### Claim C10: `del_model` -/

/-- Claim C10: `del_model` with a name absent from the registry raises
(`del omega[model_name]` on a missing key) with the registry, the pool
and the residency FIFO all unchanged — the failure happens before any
mutation; for a registered name it always returns `True` (and never
touches the pool). -/
theorem C10_del_model (s : MCState) (name : Name) :
    (containsKey s.config name = false → del_model s name = .exn s) ∧
    (containsKey s.config name = true →
      ∃ s', del_model s name = .ok true s' ∧ s'.models = s.models) := by
  constructor
  · intro h
    rw [del_model, if_neg (by simp [h])]
  · intro h
    rcases del_model_eq_cases s name with he | ⟨hc, hm, he⟩ | ⟨hc, hm, he⟩
    · rw [del_model, if_pos h] at he
      exact OpOut.noConfusion he
    · exact ⟨_, he, rfl⟩
    · exact ⟨_, he, rfl⟩

theorem C10_del_model_witness :
    (containsKey s1A.config "Z" = false ∧ del_model s1A "Z" = .exn s1A) ∧
    (containsKey s1A.config "A" = true ∧
      ∃ s', del_model s1A "A" = .ok true s' ∧ s'.models = s1A.models) :=
  ⟨⟨by decide, (C10_del_model s1A "Z").1 (by decide)⟩,
   ⟨by decide, (C10_del_model s1A "A").2 (by decide)⟩⟩

end InvokeCache
